import Mathlib

/-!
Verification development for the xknxproject ETS-project parsing library.

The Lean definitions below are shallow embeddings of the Python source:

* `xknxproject/models/models.py` — group-address formatting
  (`XMLGroupAddress.str_address`, `XMLGroupRange.str_address`),
  `ComObjectInstanceRef.apply_module_base_number_argument` and
  `_base_number_from_allocator`;
* `xknxproject/util.py` — `strip_module_instance`,
  `get_module_instance_part`, `text_parameter_template_replace`;
* `xknxproject/xml/parser.py` — the communication-object part of
  `XMLParser._transform` and `_recursive_convert_group_range`;
* `xknxproject/zip/extractor.py` — `extract` /
  `_extract_protected_project_file` password handling;
* `xknxproject/loader/application_program_loader.py` — `parse_com_object`
  number handling.

Python strings are modelled as `List Char` (the wrappers use `String`).
Python library semantics used by the source (`re` with its backtracking
preference order, `str.split`, `int(...)`, decimal `str(...)` / f-strings)
are embedded as executable Lean functions; `\w` of Python `re` is modelled
on the ASCII fragment (alphanumeric or underscore).
-/

namespace XKnxProject

/-- Word character of the Python regex class `\w` (ASCII fragment:
letters, digits or underscore). -/
def wordChar (c : Char) : Bool := c.isAlphanum || c == '_'

/-- Decimal digit character, `Char.ofNat (48 + d)` for `d < 10`;
models how Python `str(...)` renders one digit. -/
def digitCharOf (d : Nat) : Char := Char.ofNat (48 + d)

/-- Fuel-driven digit expansion (structural recursion keeps the
function computable inside the proof kernel); `toDec` supplies enough
fuel for every input. -/
def toDecFuel : Nat → Nat → List Char
  | 0, _ => []
  | fuel + 1, n =>
    if n < 10 then [digitCharOf n]
    else toDecFuel fuel (n / 10) ++ [digitCharOf (n % 10)]

/-- Decimal representation of a natural number as a list of digit
characters; models Python `str(n)` / `f"{n}"` for a non-negative int. -/
def toDec (n : Nat) : List Char := toDecFuel (n + 1) n

/-- Value of a decimal digit character. -/
def digVal (c : Char) : Nat := c.toNat - 48

/-- ASCII decimal digit test. -/
def isDigitChar (c : Char) : Bool := 48 ≤ c.toNat && c.toNat ≤ 57

/-- Parse a non-empty all-digit character list as a natural number;
reference parse used to invert decimal formatting. -/
def parseDec? (l : List Char) : Option Nat :=
  if l = [] then none
  else if l.all isDigitChar then some (l.foldl (fun acc c => acc * 10 + digVal c) 0)
  else none

/-- Python `str.split(sep)` for a single-character separator `sep`
(no maxsplit): splits at every occurrence, keeping empty pieces. -/
def pySplitChar (sep : Char) : List Char → List (List Char)
  | [] => [[]]
  | c :: t =>
    if c = sep then [] :: pySplitChar sep t
    else match pySplitChar sep t with
      | [] => [[c]]
      | p :: ps => (c :: p) :: ps

/-- Python `str.split(sep, maxsplit=1)` for a single-character separator:
the pair (piece before the first `sep`, rest after it), or the whole
string when `sep` does not occur. -/
def pySplitOnce (sep : Char) : List Char → List Char × Option (List Char)
  | [] => ([], none)
  | c :: t =>
    if c = sep then ([], some t)
    else
      let r := pySplitOnce sep t
      (c :: r.1, r.2)

/-- Python `str.split(sub, maxsplit=1)` for a multi-character separator:
`(before, some after)` at the first occurrence of `sub`, or
`(s, none)` when `sub` does not occur in `s`.  (`sub` is assumed
non-empty, as everywhere in the source.) -/
def pySplitSubOnce (sub : List Char) : List Char → List Char × Option (List Char)
  | [] => ([], none)
  | c :: t =>
    if sub.isPrefixOf (c :: t) then ([], some ((c :: t).drop sub.length))
    else
      let r := pySplitSubOnce sub t
      (c :: r.1, r.2)

/-- ASCII whitespace as stripped by Python `int(str)`. -/
def pyWhitespace (c : Char) : Bool :=
  c == ' ' || c == '\t' || c == '\n' || c == '\r' || c == '\x0c' || c == '\x0b'

/-- Digit-and-underscore scan for Python `int`: digits with single
underscores allowed between digits.  Takes the accumulated value and
whether the previous character was a digit. -/
def pyIntDigits : List Char → Nat → Bool → Option Nat
  | [], acc, prevDigit => if prevDigit then some acc else none
  | c :: t, acc, prevDigit =>
    if c = '_' then
      if prevDigit then
        match t with
        | [] => none
        | d :: _ => if isDigitChar d then pyIntDigits t acc false else none
      else none
    else if isDigitChar c then pyIntDigits t (acc * 10 + digVal c) true
    else none

/-- Python `int(s)` on a string, base 10: strips whitespace, allows one
sign, digits with single underscores between digits; `none` models the
`ValueError` raised on anything else.  (Unicode digits and non-ASCII
whitespace accepted by CPython are out of the modelled alphabet.) -/
def pyInt? (s : List Char) : Option Int :=
  let t := (s.dropWhile pyWhitespace).reverse.dropWhile pyWhitespace |>.reverse
  match t with
  | [] => none
  | c :: rest =>
    if c = '-' then (pyIntDigits rest 0 false).map (fun n => -(n : Int))
    else if c = '+' then (pyIntDigits rest 0 false).map (fun n => (n : Int))
    else (pyIntDigits t 0 false).map (fun n => (n : Int))

/-- String-level wrapper for `pyInt?`. -/
def pyIntStr? (s : String) : Option Int := pyInt? s.data

/-- Group-address display style, from `GroupAddressStyle` (imported by
`models.py` from `models/static.py`; the enum itself is not under `src/`,
its three members are fixed by the spec: free, two-level, three-level). -/
inductive GroupAddressStyle
  | FREE
  | TWOLEVEL
  | THREELEVEL
deriving DecidableEq, Repr

/-- `XMLGroupAddress.str_address` from `models/models.py`: format a raw
group address per style.  `FREE` is `str(raw)`; otherwise the top 5 bits
are the main group, three-level adds the next 3 bits and bottom 8 bits,
two-level uses the bottom 11 bits.  Total because the style enum has
exactly the three handled members. -/
def strAddressChars (raw_address : Nat) (group_address_style : GroupAddressStyle) :
    List Char :=
  match group_address_style with
  | .FREE => toDec raw_address
  | .THREELEVEL =>
    let main := (raw_address &&& 63488) >>> 11
    let middle := (raw_address &&& 1792) >>> 8
    let sub := raw_address &&& 255
    toDec main ++ '/' :: toDec middle ++ '/' :: toDec sub
  | .TWOLEVEL =>
    let main := (raw_address &&& 63488) >>> 11
    let sub := raw_address &&& 2047
    toDec main ++ '/' :: toDec sub

/-- String-level `XMLGroupAddress.str_address`. -/
def str_address (raw_address : Nat) (group_address_style : GroupAddressStyle) :
    String :=
  String.mk (strAddressChars raw_address group_address_style)

/-- Reference parse of a formatted group address (inverse direction of the
spec sentence `parse(format(r, s), s) = r`): split on `/`, parse decimal
components, and recombine them with the style's bit weights. -/
def refParseAddress (s : List Char) (style : GroupAddressStyle) : Option Nat :=
  match style with
  | .FREE => parseDec? s
  | .TWOLEVEL =>
    match pySplitChar '/' s with
    | [a, b] =>
      (parseDec? a).bind fun main => (parseDec? b).map fun sub => main * 2048 + sub
    | _ => none
  | .THREELEVEL =>
    match pySplitChar '/' s with
    | [a, b, c] =>
      (parseDec? a).bind fun main =>
        (parseDec? b).bind fun middle =>
          (parseDec? c).map fun sub => main * 2048 + middle * 256 + sub
    | _ => none

/-- Fields of `XMLGroupRange` (from `models/models.py`) that its
`str_address` and the group-range output keys depend on; nested ranges
are a separate recursive structure below. -/
structure XMLGroupRangeData where
  name : String
  range_start : Nat
  range_end : Nat
  style : GroupAddressStyle
deriving DecidableEq, Repr

/-- `XMLGroupRange.str_address` from `models/models.py`: free style is
`f"{start}...{end}"`; two-level takes the part of the formatted start
address before the first `/`; three-level joins the first two `/`-parts
of the formatted start, or only the first when the range spans at least
2046 addresses. -/
def groupRangeStrAddress (gr : XMLGroupRangeData) : List Char :=
  match gr.style with
  | .FREE => toDec gr.range_start ++ '.' :: '.' :: '.' :: toDec gr.range_end
  | .TWOLEVEL => (pySplitOnce '/' (strAddressChars gr.range_start gr.style)).1
  | .THREELEVEL =>
    let start_address_token := pySplitChar '/' (strAddressChars gr.range_start gr.style)
    if gr.range_end - gr.range_start ≥ 2046 then
      start_address_token.headI
    else
      match start_address_token with
      | a :: b :: _ => a ++ '/' :: b
      | [a] => a
      | [] => []

/-- Recursive group-range tree, as loaded by the project loader. -/
inductive GroupRangeTree
  | node (data : XMLGroupRangeData) (children : List GroupRangeTree)

/-- Data of a group-range tree node. -/
def GroupRangeTree.data : GroupRangeTree → XMLGroupRangeData
  | .node d _ => d

/-- Children of a group-range tree node. -/
def GroupRangeTree.children : GroupRangeTree → List GroupRangeTree
  | .node _ c => c

/-- Dictionary keys produced by `_recursive_convert_group_range` in
`xml/parser.py` for one level of the group-range list: each range is
keyed by its `str_address()`. -/
def recursiveConvertKeys (group_ranges : List GroupRangeTree) : List (List Char) :=
  group_ranges.map fun gr => groupRangeStrAddress gr.data

/-- Opening curly brace (written via its code point to keep string
literals free of brace characters). -/
def lbrace : Char := Char.ofNat 123

/-- Closing curly brace. -/
def rbrace : Char := Char.ofNat 125

/-- `ParameterInstanceRef` from `models/models.py` (ref id and optional
runtime value). -/
structure ParameterInstanceRef where
  ref_id : String
  value : Option String
deriving DecidableEq, Repr

/-- Lazy `(.*?)}}` scan of the template pattern: returns the minimal
newline-free group followed by a double closing brace, and the rest after
the braces (`.` of Python `re` does not match a newline). -/
def tmplLazy : List Char → Option (List Char × List Char)
  | c1 :: c2 :: t =>
    if c1 = rbrace ∧ c2 = rbrace then some ([], t)
    else if c1 = '\n' then none
    else (tmplLazy (c2 :: t)).map fun r => (c1 :: r.1, r.2)
  | _ => none

/-- Match of the pattern of `text_parameter_template_replace`
(`{{0(?::?)(.*?)}}` in `util.py`) at the start of `s`: the literal
open-brace twice and `0`, an optional colon (tried first, per greedy
`?`), the lazy group, and two closing braces.  Returns the captured
group and the number of characters of the match beyond the five fixed
ones (`{{0` and `}}`), so the full match length is `5 + extra`. -/
def tmplMatchAt (s : List Char) : Option (List Char × Nat) :=
  if (lbrace :: lbrace :: '0' :: []).isPrefixOf s then
    match s.drop 3 with
    | c :: u1 =>
      if c = ':' then
        match tmplLazy u1 with
        | some r => some (r.1, r.1.length + 1)
        | none =>
          -- backtrack: the optional colon matches empty, the lazy group
          -- starts at the colon character
          (tmplLazy (c :: u1)).map fun r => (r.1, r.1.length)
      else (tmplLazy (c :: u1)).map fun r => (r.1, r.1.length)
    | [] => none
  else none

/-- Replacement function of `text_parameter_template_replace`:
`parameter_value or matchobj.group(1)` where `parameter_value` is the
parameter's value when a parameter is bound (`None` and the empty string
are falsy). -/
def tmplReplacement (parameter : Option ParameterInstanceRef) (group1 : List Char) :
    List Char :=
  match parameter with
  | none => group1
  | some p =>
    match p.value with
    | none => group1
    | some v => if v = "" then group1 else v.data

/-- Fuel-driven scan loop of `re.sub` for the template pattern: at each
position try the match; on success emit the replacement and continue
after the match, otherwise copy one character.  Each match consumes at
least five characters, so fuel `≥ length` suffices; structural
recursion on the fuel keeps the scan computable in the kernel. -/
def tmplSubFuel (parameter : Option ParameterInstanceRef) :
    Nat → List Char → List Char
  | 0, s => s
  | fuel + 1, s =>
    match s with
    | [] => []
    | c :: t =>
      match tmplMatchAt (c :: t) with
      | some (g, extra) =>
        tmplReplacement parameter g ++
          tmplSubFuel parameter fuel ((c :: t).drop (extra + 5))
      | none => c :: tmplSubFuel parameter fuel t

/-- Scan loop of `re.sub` for the template pattern. -/
def tmplSub (parameter : Option ParameterInstanceRef) (s : List Char) : List Char :=
  tmplSubFuel parameter s.length s

/-- `text_parameter_template_replace` from `util.py`. -/
def text_parameter_template_replace (text : String)
    (parameter : Option ParameterInstanceRef) : String :=
  String.mk (tmplSub parameter text.data)

/-- Candidates for an optional group `(<c1><c2>-\w+_)` matched at the
start of `s`, in the preference order of the backtracking engine: the
literal three-character head, then `\w+` greedy (longest first), then a
literal underscore.  Returns (consumed, rest) pairs. -/
def optGroupCands (c1 c2 : Char) (s : List Char) : List (List Char × List Char) :=
  match s with
  | d1 :: d2 :: '-' :: u =>
    if d1 = c1 ∧ d2 = c2 then
      let run := (u.takeWhile wordChar).length
      (((List.range run).reverse.map (· + 1))).filterMap fun j =>
        if u.get? j = some '_' then
          some (c1 :: c2 :: '-' :: (u.take j ++ ['_']), u.drop (j + 1))
        else none
    else []
  | _ => []

/-- Match of the pattern of `strip_module_instance`
(`(MD-\w+_)?.*?(SM-\w+_)?(<search_id>-.*)` in `util.py`) at the start of
`s`, following the preference order of the Python backtracking engine:
group 1 candidates (present, longest `\w+` first, then absent), then the
lazy gap (shortest first, newline-free), then group 2 candidates, then
the literal kind token, a dash, and the greedy newline-free remainder.
Returns the replacement (the concatenation of the three groups, i.e. the
match with the lazy gap removed) and the match length minus one. -/
def stripMatchAt (k : List Char) (s : List Char) : Option (List Char × Nat) :=
  let kd := k ++ ['-']
  (optGroupCands 'M' 'D' s ++ [([], s)]).findSome? fun (ar : List Char × List Char) =>
    let nl := (ar.2.takeWhile (fun c => c ≠ '\n')).length
    (List.range (nl + 1)).findSome? fun l =>
      let rp := ar.2.drop l
      (optGroupCands 'S' 'M' rp ++ [([], rp)]).findSome?
        fun (br : List Char × List Char) =>
        if kd.isPrefixOf br.2 then
          let tail := (br.2.drop kd.length).takeWhile (fun c => c ≠ '\n')
          some (ar.1 ++ br.1 ++ (k ++ '-' :: tail),
            ar.1.length + l + br.1.length + k.length + tail.length)
        else none

/-- Fuel-driven scan loop of `re.sub` for the strip pattern (each match
has length `extra + 1`, the `1` accounting for the mandatory dash, so
fuel `≥ length` suffices). -/
def stripSubFuel (k : List Char) : Nat → List Char → List Char
  | 0, s => s
  | fuel + 1, s =>
    match s with
    | [] => []
    | c :: t =>
      match stripMatchAt k (c :: t) with
      | some (repl, extra) =>
        repl ++ stripSubFuel k fuel ((c :: t).drop (extra + 1))
      | none => c :: stripSubFuel k fuel t

/-- Scan loop of `re.sub` for the strip pattern. -/
def stripSub (k : List Char) (s : List Char) : List Char :=
  stripSubFuel k s.length s

/-- `strip_module_instance` from `util.py`. -/
def strip_module_instance (text : String) (search_id : String) : String :=
  String.mk (stripSub search_id.data text.data)

/-- Shape of an optional group `(<c1><c2>-\w+_)` of the strip pattern:
absent, or the three-character head, a nonempty word-character run and
an underscore. -/
def optForm (c1 c2 : Char) (a : List Char) : Prop :=
  a = [] ∨ ∃ w, w ≠ [] ∧ (∀ c ∈ w, wordChar c = true) ∧
    a = c1 :: c2 :: '-' :: (w ++ ['_'])

def noReach (k : List Char) (s : List Char) : Prop :=
  ∀ q, (∀ c ∈ s.take q, c ≠ '\n') → (k ++ ['-']).isPrefixOf (s.drop q) = false

def stripG (k a1 : List Char) (l : Nat) (br : List Char × List Char) :
    Option (List Char × Nat) :=
  if (k ++ ['-']).isPrefixOf br.2 then
    some (a1 ++ br.1 ++ (k ++ '-' ::
        ((br.2.drop (k ++ ['-']).length).takeWhile (fun c => c ≠ '\n'))),
      a1.length + l + br.1.length + k.length +
        ((br.2.drop (k ++ ['-']).length).takeWhile (fun c => c ≠ '\n')).length)
  else none

def stripF (k : List Char) (ar : List Char × List Char) :
    Option (List Char × Nat) :=
  (List.range ((ar.2.takeWhile (fun c => c ≠ '\n')).length + 1)).findSome?
    fun l =>
      (optGroupCands 'S' 'M' (ar.2.drop l) ++ [([], ar.2.drop l)]).findSome?
        (stripG k ar.1 l)


/-- Match of the pattern of `get_module_instance_part`
(`(MD-.*)_<next_id>-` in `util.py`) anchored at the start of `s`:
the literal `MD-`, then `.*` greedy (longest newline-free gap first),
then `_`, the kind token, and a dash.  Returns group 1. -/
def mdMatchHere (k : List Char) (s : List Char) : Option (List Char) :=
  match s with
  | 'M' :: 'D' :: '-' :: u =>
    let nl := (u.takeWhile (fun c => c ≠ '\n')).length
    (List.range (nl + 1)).reverse.findSome? fun j =>
      if ('_' :: (k ++ ['-'])).isPrefixOf (u.drop j) then
        some ('M' :: 'D' :: '-' :: u.take j)
      else none
  | _ => none

/-- `re.search` scan for `get_module_instance_part`: leftmost start
position wins. -/
def mdSearchFrom (k : List Char) : List Char → Option (List Char)
  | [] => none
  | c :: t =>
    match mdMatchHere k (c :: t) with
    | some g => some g
    | none => mdSearchFrom k t

/-- `get_module_instance_part` from `util.py`: group 1 of the search, or
the empty string when there is no match. -/
def get_module_instance_part (ref : String) (next_id : String) : String :=
  match mdSearchFrom next_id.data ref.data with
  | some g => String.mk g
  | none => ""

/-- Occurrence test for a pattern as a contiguous substring: true when
`pat` is a prefix of some suffix of the text. -/
def hasInfix (pat : List Char) : List Char → Bool
  | [] => pat.isPrefixOf []
  | c :: t => pat.isPrefixOf (c :: t) || hasInfix pat t

/-- Attributes of an XML element (attribute names are unique per
element, per the XML standard). -/
def ElementAttrs : Type := List (String × String)

/-- `ElementTree.Element.get(name)`: the attribute's value or `None`. -/
def getAttr (attrs : ElementAttrs) (name : String) : Option String :=
  (List.find? (fun p => p.1 = name) attrs).map (fun p => p.2)

/-- Number computation of `ApplicationProgramLoader.parse_com_object`
(`application_program_loader.py`): `int(elem.get("Number", 0))`.  With
the attribute absent, `get` returns the integer default `0` and
`int(0) = 0`; with it present, `int` parses the string (`none` models
the `ValueError` raised on a non-integer value). -/
def parseComObjectNumber (attrs : ElementAttrs) : Option Int :=
  match getAttr attrs "Number" with
  | none => some 0
  | some s => pyInt? s.data

/-- Group-address fields used by `XMLParser._transform`
(`xml/parser.py`): the identifier and the formatted address. -/
structure XMLGroupAddressKeys where
  identifier : String
  address : String
deriving DecidableEq, Repr

/-- Communication-object instance-ref fields used by the `_transform`
loop: the ref id and the optional link list (`None` when the element had
no links; the loader actually drops link-less instances earlier). -/
structure ComObjectInstanceRefLinks where
  ref_id : String
  links : Option (List String)
deriving DecidableEq, Repr

/-- Device fields used by the `_transform` loop. -/
structure DeviceForTransform where
  individual_address : String
  com_object_instance_refs : List ComObjectInstanceRefLinks
deriving DecidableEq, Repr

/-- The dictionary `_ga_id_to_address = {ga.identifier: ga.address ...}`
with Python dict semantics (`[...]`-comprehension: a later binding for
the same identifier overwrites an earlier one), queried with `.get`. -/
def gaIdToAddress (group_addresses : List XMLGroupAddressKeys) (link : String) :
    Option String :=
  (List.find? (fun ga => ga.identifier = link) group_addresses.reverse).map
    (fun ga => ga.address)

/-- The link resolution of `_transform`: keep `valid_link :=
_ga_id_to_address.get(link)` when truthy (drops both `None` and the
empty string, per the walrus-`if`). -/
def resolveLinks (group_addresses : List XMLGroupAddressKeys)
    (links : List String) : List String :=
  links.filterMap fun link =>
    match gaIdToAddress group_addresses link with
    | none => none
    | some a => if a = "" then none else some a

/-- One step of the communication-object loop of `_transform` for a
device: skips instance refs whose `links` is `None` or `[]` and those
whose links all fail to resolve; otherwise emits the
`"<ia>/<ref-id>"`-keyed entry (projected here to its
`group_address_links` field) and records the key in the device's
communication-object id list. -/
def transformComObjectsStep (group_addresses : List XMLGroupAddressKeys)
    (ia : String) (acc : List (String × List String) × List String)
    (co : ComObjectInstanceRefLinks) :
    List (String × List String) × List String :=
  match co.links with
  | none => acc
  | some ls =>
    if ls = [] then acc
    else
      let group_address_links := resolveLinks group_addresses ls
      if group_address_links = [] then acc
      else
        let key := ia ++ "/" ++ co.ref_id
        (acc.1 ++ [(key, group_address_links)], acc.2 ++ [key])

/-- The communication-object loop of `_transform` for one device:
returns the `communication_objects` entries it contributes and the
device's `communication_object_ids`. -/
def transformComObjects (group_addresses : List XMLGroupAddressKeys)
    (device : DeviceForTransform) :
    List (String × List String) × List String :=
  device.com_object_instance_refs.foldl
    (transformComObjectsStep group_addresses device.individual_address) ([], [])

/-- `ModuleInstanceArgument` from `models/models.py` (the `name` and
`allocates` fields are filled from the application program). -/
structure ModuleInstanceArgument where
  ref_id : String
  value : String
  name : String
  allocates : Option Int
deriving DecidableEq, Repr

/-- `ModuleInstance` input fields from `models/models.py`. -/
structure ModuleInstance where
  identifier : String
  ref_id : String
  arguments : List ModuleInstanceArgument
deriving DecidableEq, Repr

/-- `ModuleInstance.module_def_id` from `__post_init__`:
`ref_id.split("_", maxsplit=1)[0]`. -/
def ModuleInstance.module_def_id (mi : ModuleInstance) : String :=
  String.mk (pySplitOnce '_' mi.ref_id.data).1

/-- The `re.search(r"(_SM-[^_]+)", identifier)` of
`ModuleInstance.__post_init__`: the first occurrence of `_SM-` followed
by at least one non-underscore character, captured greedily. -/
def subModuleMatch : List Char → Option (List Char)
  | [] => none
  | c :: t =>
    if ('_' :: 'S' :: 'M' :: '-' :: []).isPrefixOf (c :: t) then
      let after := (c :: t).drop 4
      match after.takeWhile (fun d => d ≠ '_') with
      | [] => subModuleMatch t
      | run => some ('_' :: 'S' :: 'M' :: '-' :: run)
    else subModuleMatch t

/-- `ModuleInstance.base_module`: for sub-modules (identifier contains a
`_SM-` segment), the identifier part before the first `_SM-`. -/
def ModuleInstance.base_module (mi : ModuleInstance) : Option String :=
  match subModuleMatch mi.identifier.data with
  | some _ => some (String.mk (pySplitSubOnce ('_' :: 'S' :: 'M' :: '-' :: []) mi.identifier.data).1)
  | none => none

/-- `ModuleInstance.definition_id`: the module-def id plus the matched
`_SM-…` segment when present. -/
def ModuleInstance.definition_id (mi : ModuleInstance) : String :=
  match subModuleMatch mi.identifier.data with
  | some sm => mi.module_def_id ++ String.mk sm
  | none => mi.module_def_id

/-- `Allocator` from `models/models.py`. -/
structure Allocator where
  identifier : String
  name : String
  start : Int
  stop : Int
deriving DecidableEq, Repr

/-- `ModuleDefinitionNumericArg` from `models/models.py`. -/
structure ModuleDefinitionNumericArg where
  allocator_ref_id : Option String
  value : Option Int
  base_value : Option String
deriving DecidableEq, Repr

/-- The parts of `ApplicationProgram` used by the base-number
computation: allocators (dict values, in insertion order) and the
numeric-args dict. -/
structure ApplicationProgramData where
  allocators : List Allocator
  numeric_args : List (String × ModuleDefinitionNumericArg)
deriving DecidableEq, Repr

/-- `ModuleInstanceInfos` recorded on a resolved instance ref. -/
structure ModuleInstanceInfos where
  definition : String
  root_number : Int
deriving DecidableEq, Repr

/-- The fields of `ComObjectInstanceRef` that
`apply_module_base_number_argument` reads and writes. -/
structure ComObjectInstanceRefBase where
  ref_id : String
  application_program_id_prefix : String
  base_number_argument_ref : Option String
  number : Option Int
  module : Option ModuleInstanceInfos
deriving DecidableEq, Repr

/-- `ComObjectInstanceRef._base_number_from_allocator` from
`models/models.py`: find the allocator whose identifier is the
application-program prefix plus the argument's value (first match over
the dict's values, `UnexpectedDataError` when absent); return 0 when the
argument has no `allocates` (warning path); otherwise
`start + allocates * (index - 1)` with the index parsed from the text
between the first `_MI-` of the instance ref's ref id and the next
underscore (a missing `_MI-` raises `IndexError`, a non-integer raises
`ValueError`; both are modelled as errors). -/
def baseNumberFromAllocator (co : ComObjectInstanceRefBase)
    (base_number_argument : ModuleInstanceArgument)
    (application_allocators : List Allocator) : Except String Int :=
  match List.find?
      (fun al => al.identifier =
        co.application_program_id_prefix ++ base_number_argument.value)
      application_allocators with
  | none => .error "UnexpectedDataError: Allocator not found"
  | some allocator_object_base =>
    match base_number_argument.allocates with
    | none => .ok 0
    | some allocator_size =>
      match (pySplitSubOnce ('_' :: 'M' :: 'I' :: '-' :: []) co.ref_id.data).2 with
      | none => .error "IndexError: no _MI- in ref_id"
      | some after =>
        match pyInt? (pySplitOnce '_' after).1 with
        | none => .error "ValueError: module instance index"
        | some module_instance_index =>
          .ok (allocator_object_base.start +
            allocator_size * (module_instance_index - 1))

/-- The inner `_parse_base_number_argument` of
`apply_module_base_number_argument`: find the argument by ref id
(`UnexpectedDataError` when absent); if its value parses as an integer
return it directly; otherwise, for sub-modules whose numeric arg has a
`BaseValue` reference, recurse into the base module and add the
allocator contribution.  `fuel` bounds the recursion (Python recurses
unboundedly and would overflow on a cyclic base-module chain). -/
def parseBaseNumberArgument (co : ComObjectInstanceRefBase)
    (application : ApplicationProgramData)
    (module_instances : List ModuleInstance) :
    Nat → ModuleInstance → String → Except String Int
  | 0, _, _ => .error "recursion limit: cyclic base modules"
  | fuel + 1, module_instance, base_number_argument_ref =>
    match List.find? (fun arg => arg.ref_id = base_number_argument_ref)
        module_instance.arguments with
    | none => .error "UnexpectedDataError: Base number argument not found"
    | some base_number_argument =>
      match pyInt? base_number_argument.value.data with
      | some n => .ok n
      | none =>
        let recPart : Except String Int :=
          match module_instance.base_module with
          | none => .ok 0
          | some bm =>
            match (List.find? (fun p => p.1 = base_number_argument.ref_id)
                application.numeric_args).map (fun p => p.2) with
            | none => .ok 0
            | some num_arg =>
              match num_arg.base_value with
              | none => .ok 0
              | some base_value_ref =>
                match List.find? (fun mi => mi.identifier = bm) module_instances with
                | none => .error "UnexpectedDataError: Base ModuleInstance not found"
                | some base_moduleInstance =>
                  parseBaseNumberArgument co application module_instances fuel
                    base_moduleInstance base_value_ref
        recPart.bind fun r =>
          (baseNumberFromAllocator co base_number_argument
              application.allocators).map
            (fun a => r + a)

/-- `ComObjectInstanceRef.apply_module_base_number_argument` from
`models/models.py`: no-op unless the instance ref has a base-number
argument ref, its ref id starts with `MD-` and it has a number; then the
owning module instance is the first whose identifier plus `_` prefixes
the ref id (`UnexpectedDataError` when absent), the parsed offset is
added to the number, and the original number is recorded as the module
info's `root_number` together with the module instance's
`definition_id`. -/
def applyModuleBaseNumberArgument (co : ComObjectInstanceRefBase)
    (module_instances : List ModuleInstance)
    (application : ApplicationProgramData) :
    Except String ComObjectInstanceRefBase :=
  match co.base_number_argument_ref, co.number with
  | some bref, some com_object_number =>
    if ('M' :: 'D' :: '-' :: []).isPrefixOf co.ref_id.data then
      match List.find?
          (fun mi => (mi.identifier ++ "_").data.isPrefixOf co.ref_id.data)
          module_instances with
      | none => .error "UnexpectedDataError: ModuleInstance not found"
      | some module_instance =>
        (parseBaseNumberArgument co application module_instances
            (module_instances.length + 1) module_instance bref).map fun offset =>
          { co with
            number := some (com_object_number + offset),
            module := some ⟨module_instance.definition_id, com_object_number⟩ }
    else .ok co
  | _, _ => .ok co

/-- Typed error surface of the archive extractor
(`exceptions/exceptions.py`), restricted to the kinds reachable from
`extract`.  Distinct constructors model the distinct exception
classes. -/
inductive KnxError
  | invalidPassword (msg : String)
  | projectNotFound (msg : String)
  | unexpectedFileContent (msg : String)
deriving DecidableEq, Repr

/-- The outer archive as seen by `extract` (`zip/extractor.py`): the
file names in the outer ZIP, the XML namespace read from
`knx_master.xml`, and an abstraction of the inner-archive decryption:
`innerDecrypts password schemaVersion` is true when reading the inner
ZIP with the ZIP key derived from `password` raises no `RuntimeError`
(the key derivation and the ZIP decryption live in external
libraries). -/
structure OuterArchive where
  files : List String
  xmlNamespace : String
  innerDecrypts : String → Int → Bool

/-- Result of a successful `extract`, projected to the fields the
password-handling claims are about. -/
structure KNXProjContentsLite where
  projectId : String
  passwordProtected : Bool
deriving DecidableEq, Repr

/-- Python `str.startswith` on the character lists. -/
def pyStartsWith (s p : String) : Bool := p.data.isPrefixOf s.data

/-- Python `str.endswith` on the character lists. -/
def pyEndsWith (s p : String) : Bool := p.data.isSuffixOf s.data

/-- Python `str.removesuffix` (callers check `endswith` first). -/
def pyRemoveSuffix (s p : String) : String :=
  String.mk (s.data.take (s.data.length - p.data.length))

/-- `_get_project_id`: the first file named `P-…​.signature`, with the
suffix removed; `ProjectNotFoundException` when absent. -/
def getProjectId (files : List String) : Except KnxError String :=
  match List.find? (fun f => pyStartsWith f "P-" && pyEndsWith f ".signature") files with
  | some f => .ok (pyRemoveSuffix f ".signature")
  | none => .error (.projectNotFound "Signature file not found.")

/-- `_get_schema_version`: the integer after the last `/` of the
namespace; `UnexpectedFileContent` when it does not parse. -/
def getSchemaVersion (ns : String) : Except KnxError Int :=
  match pyInt? ((pySplitChar '/' ns.data).getLastD []) with
  | some v => .ok v
  | none => .error (.unexpectedFileContent "Could not parse schema version.")

/-- `extract` from `zip/extractor.py`, with the password handling of
`_extract_protected_project_file` inlined: resolve the project id and
schema version; when `<project-id>.zip` exists at the top level the
project is password protected — a missing (or empty, per `if not
password`) password raises `InvalidPasswordException`, and a password
the inner archive cannot be read with raises
`InvalidPasswordException` from the `RuntimeError`; otherwise the
archive is opened without any password check. -/
def extract (archive : OuterArchive) (password : Option String) :
    Except KnxError KNXProjContentsLite :=
  (getProjectId archive.files).bind fun project_id =>
    (getSchemaVersion archive.xmlNamespace).bind fun schema_version =>
      if (project_id ++ ".zip") ∈ archive.files then
        match password with
        | none => .error (.invalidPassword "Password required.")
        | some p =>
          if p = "" then .error (.invalidPassword "Password required.")
          else if archive.innerDecrypts p schema_version then
            .ok ⟨project_id, true⟩
          else .error (.invalidPassword "Invalid password.")
      else .ok ⟨project_id, false⟩

/-! ### Helper lemmas -/

theorem isDigitChar_digitCharOf {d : Nat} (h : d < 10) :
    isDigitChar (digitCharOf d) = true := by
  interval_cases d <;> decide

theorem digVal_digitCharOf {d : Nat} (h : d < 10) : digVal (digitCharOf d) = d := by
  interval_cases d <;> decide

theorem not_pyWhitespace_of_digit {c : Char} (h : isDigitChar c = true) :
    pyWhitespace c = false := by
  by_contra hw
  simp only [Bool.not_eq_false] at hw
  simp only [pyWhitespace, Bool.or_eq_true, beq_iff_eq] at hw
  rcases hw with ((((h1 | h1) | h1) | h1) | h1) | h1 <;> subst h1 <;> simp_all [isDigitChar]

theorem digit_ne_slash {c : Char} (h : isDigitChar c = true) : c ≠ '/' := by
  rintro rfl
  simp [isDigitChar] at h

theorem toDecFuel_congr : ∀ (f1 f2 n : Nat), n < f1 → n < f2 →
    toDecFuel f1 n = toDecFuel f2 n := by
  intro f1
  induction f1 with
  | zero => omega
  | succ fuel ih =>
    intro f2 n h1 h2
    cases f2 with
    | zero => omega
    | succ fuel2 =>
      rw [toDecFuel, toDecFuel]
      by_cases h : n < 10
      · simp [h]
      · rw [if_neg h, if_neg h, ih fuel2 (n / 10) (by omega) (by omega)]

theorem toDec_eq (n : Nat) :
    toDec n = if n < 10 then [digitCharOf n]
      else toDec (n / 10) ++ [digitCharOf (n % 10)] := by
  rw [toDec, toDecFuel]
  by_cases h : n < 10
  · simp [h]
  · rw [if_neg h, if_neg h, toDec,
      toDecFuel_congr n (n / 10 + 1) (n / 10) (by omega) (by omega)]

theorem stripSubFuel_congr (k : List Char) : ∀ (f1 f2 : Nat) (s : List Char),
    s.length ≤ f1 → s.length ≤ f2 → stripSubFuel k f1 s = stripSubFuel k f2 s := by
  intro f1
  induction f1 with
  | zero =>
    intro f2 s h1 _
    have : s = [] := List.length_eq_zero.mp (by omega)
    subst this
    cases f2 <;> rfl
  | succ fuel ih =>
    intro f2 s h1 h2
    cases s with
    | nil => cases f2 <;> rfl
    | cons c t =>
      cases f2 with
      | zero => simp at h2
      | succ fuel2 =>
        rw [stripSubFuel, stripSubFuel]
        cases hm : stripMatchAt k (c :: t) with
        | none =>
          rw [ih fuel2 t (by simp at h1; omega) (by simp at h2; omega)]
        | some pr =>
          obtain ⟨repl, extra⟩ := pr
          dsimp only
          rw [ih fuel2 ((c :: t).drop (extra + 1))
            (by simp only [List.length_drop, List.length_cons] at h1 ⊢; omega)
            (by simp only [List.length_drop, List.length_cons] at h2 ⊢; omega)]

theorem stripSub_nil (k : List Char) : stripSub k [] = [] := rfl

theorem stripSub_cons (k : List Char) (c : Char) (t : List Char) :
    stripSub k (c :: t) =
      match stripMatchAt k (c :: t) with
      | some (repl, extra) => repl ++ stripSub k ((c :: t).drop (extra + 1))
      | none => c :: stripSub k t := by
  rw [stripSub]
  simp only [List.length_cons]
  rw [stripSubFuel]
  cases hm : stripMatchAt k (c :: t) with
  | none => rfl
  | some pr =>
    show _ ++ stripSubFuel k t.length ((c :: t).drop (pr.2 + 1)) = _
    rw [stripSubFuel_congr k t.length ((c :: t).drop (pr.2 + 1)).length _
      (by simp only [List.length_drop, List.length_cons]; omega) (le_refl _)]
    rfl

theorem tmplSubFuel_congr (parameter : Option ParameterInstanceRef) :
    ∀ (f1 f2 : Nat) (s : List Char),
    s.length ≤ f1 → s.length ≤ f2 →
    tmplSubFuel parameter f1 s = tmplSubFuel parameter f2 s := by
  intro f1
  induction f1 with
  | zero =>
    intro f2 s h1 _
    have : s = [] := List.length_eq_zero.mp (by omega)
    subst this
    cases f2 <;> rfl
  | succ fuel ih =>
    intro f2 s h1 h2
    cases s with
    | nil => cases f2 <;> rfl
    | cons c t =>
      cases f2 with
      | zero => simp at h2
      | succ fuel2 =>
        rw [tmplSubFuel, tmplSubFuel]
        cases hm : tmplMatchAt (c :: t) with
        | none =>
          rw [ih fuel2 t (by simp at h1; omega) (by simp at h2; omega)]
        | some pr =>
          obtain ⟨g, extra⟩ := pr
          dsimp only
          rw [ih fuel2 ((c :: t).drop (extra + 5))
            (by simp only [List.length_drop, List.length_cons] at h1 ⊢; omega)
            (by simp only [List.length_drop, List.length_cons] at h2 ⊢; omega)]

theorem tmplSub_nil (parameter : Option ParameterInstanceRef) :
    tmplSub parameter [] = [] := rfl

theorem tmplSub_cons (parameter : Option ParameterInstanceRef) (c : Char)
    (t : List Char) :
    tmplSub parameter (c :: t) =
      match tmplMatchAt (c :: t) with
      | some (g, extra) =>
        tmplReplacement parameter g ++ tmplSub parameter ((c :: t).drop (extra + 5))
      | none => c :: tmplSub parameter t := by
  rw [tmplSub]
  simp only [List.length_cons]
  rw [tmplSubFuel]
  cases hm : tmplMatchAt (c :: t) with
  | none => rfl
  | some pr =>
    show _ ++ tmplSubFuel parameter t.length ((c :: t).drop (pr.2 + 5)) = _
    rw [tmplSubFuel_congr parameter t.length ((c :: t).drop (pr.2 + 5)).length _
      (by simp only [List.length_drop, List.length_cons]; omega) (le_refl _)]
    rfl

theorem toDec_all_digits (n : Nat) : ∀ c ∈ toDec n, isDigitChar c = true := by
  induction n using Nat.strong_induction_on with
  | _ n ih =>
    rw [toDec_eq]
    by_cases h : n < 10
    · simp only [if_pos h, List.mem_singleton]
      rintro c rfl
      exact isDigitChar_digitCharOf h
    · simp only [if_neg h, List.mem_append, List.mem_singleton]
      rintro c (hc | rfl)
      · exact ih (n / 10) (Nat.div_lt_self (by omega) (by omega)) c hc
      · exact isDigitChar_digitCharOf (Nat.mod_lt _ (by omega))

theorem toDec_ne_nil (n : Nat) : toDec n ≠ [] := by
  rw [toDec_eq]
  by_cases h : n < 10 <;> simp [h]

theorem toDec_no_slash (n : Nat) : ∀ c ∈ toDec n, c ≠ '/' :=
  fun c hc => digit_ne_slash (toDec_all_digits n c hc)

theorem toDec_no_newline (n : Nat) : ∀ c ∈ toDec n, c ≠ '\n' := by
  intro c hc
  have := toDec_all_digits n c hc
  rintro rfl
  simp [isDigitChar] at this

theorem foldl_dec_append (a : List Char) (d : Char) (acc : Nat) :
    (a ++ [d]).foldl (fun acc c => acc * 10 + digVal c) acc =
      (a.foldl (fun acc c => acc * 10 + digVal c) acc) * 10 + digVal d := by
  rw [List.foldl_append]
  rfl

theorem foldl_toDec (n : Nat) :
    (toDec n).foldl (fun acc c => acc * 10 + digVal c) 0 = n := by
  induction n using Nat.strong_induction_on with
  | _ n ih =>
    rw [toDec_eq]
    by_cases h : n < 10
    · simp only [if_pos h, List.foldl_cons, List.foldl_nil]
      rw [digVal_digitCharOf h]
      omega
    · simp only [if_neg h]
      rw [foldl_dec_append, ih (n / 10) (Nat.div_lt_self (by omega) (by omega)),
        digVal_digitCharOf (Nat.mod_lt _ (by omega))]
      omega

theorem parseDec?_toDec (n : Nat) : parseDec? (toDec n) = some n := by
  have hne := toDec_ne_nil n
  have hall : (toDec n).all isDigitChar = true := by
    rw [List.all_eq_true]
    exact toDec_all_digits n
  rw [parseDec?, if_neg hne, if_pos hall, foldl_toDec]

theorem dropWhile_eq_self_of_forall {p : Char → Bool} {l : List Char}
    (h : ∀ c ∈ l, p c = false) : l.dropWhile p = l := by
  cases l with
  | nil => rfl
  | cons c t =>
    rw [List.dropWhile_cons, h c (by simp)]
    simp

theorem pyIntDigits_all_digits (l : List Char) (acc : Nat) (b : Bool)
    (h : ∀ c ∈ l, isDigitChar c = true) :
    pyIntDigits l acc b =
      if l = [] then (if b then some acc else none)
      else some (l.foldl (fun acc c => acc * 10 + digVal c) acc) := by
  induction l generalizing acc b with
  | nil => rfl
  | cons c t ih =>
    have hc : isDigitChar c = true := h c (by simp)
    have hcu : ¬(c = '_') := by
      rintro rfl
      simp [isDigitChar] at hc
    rw [pyIntDigits.eq_def]
    simp only [if_neg hcu, if_pos hc]
    rw [ih _ true (fun d hd => h d (by simp [hd]))]
    by_cases ht : t = []
    · subst ht
      simp
    · simp only [if_neg ht, List.foldl_cons]
      simp

theorem pyInt?_of_parseDec {l : List Char} {n : Nat} (h : parseDec? l = some n) :
    pyInt? l = some (n : Int) := by
  rw [parseDec?] at h
  by_cases hne : l = []
  · simp [hne] at h
  rw [if_neg hne] at h
  by_cases hall : l.all isDigitChar = true
  · rw [if_pos hall] at h
    have hdig : ∀ c ∈ l, isDigitChar c = true := List.all_eq_true.mp hall
    have hnws : ∀ c ∈ l, pyWhitespace c = false :=
      fun c hc => not_pyWhitespace_of_digit (hdig c hc)
    rw [pyInt?]
    have h1 : l.dropWhile pyWhitespace = l := dropWhile_eq_self_of_forall hnws
    have h2 : l.reverse.dropWhile pyWhitespace = l.reverse :=
      dropWhile_eq_self_of_forall (fun c hc => hnws c (List.mem_reverse.mp hc))
    simp only [h1, h2, List.reverse_reverse]
    cases l with
    | nil => exact absurd rfl hne
    | cons c t =>
      have hc : isDigitChar c = true := hdig c (by simp)
      have hcm : ¬(c = '-') := by rintro rfl; simp [isDigitChar] at hc
      have hcp : ¬(c = '+') := by rintro rfl; simp [isDigitChar] at hc
      simp only [if_neg hcm, if_neg hcp]
      rw [pyIntDigits_all_digits _ _ _ hdig, if_neg hne]
      simp only [Option.some.injEq] at h
      simp [h]
  · rw [if_neg hall] at h
    exact absurd h (by simp)

/-! ### C9 — ComObject Number parsing -/

/-- C9: for every ComObject XML element, parsing never fails on a missing
`Number` attribute: when the attribute is absent the resulting number is
`0` (the integer default of `elem.get("Number", 0)`), and when it is
present the number is its decimal integer value. -/
theorem parse_com_object_number_total :
    (∀ attrs : ElementAttrs, getAttr attrs "Number" = none →
      parseComObjectNumber attrs = some 0) ∧
    (∀ (attrs : ElementAttrs) (s : String) (n : Nat),
      getAttr attrs "Number" = some s → parseDec? s.data = some n →
      parseComObjectNumber attrs = some (n : Int)) := by
  constructor
  · intro attrs h
    rw [parseComObjectNumber, h]
  · intro attrs s n h hp
    rw [parseComObjectNumber, h]
    exact pyInt?_of_parseDec hp

/-- Witness for C9 at concrete elements: one without a `Number`
attribute, one with `Number="42"`. -/
theorem parse_com_object_number_total_witness :
    parseComObjectNumber [("Id", "x")] = some 0 ∧
      parseComObjectNumber [("Number", "42")] = some 42 :=
  ⟨parse_com_object_number_total.1 [("Id", "x")] (by decide),
    parse_com_object_number_total.2 [("Number", "42")] "42" 42 (by decide) (by decide)⟩

/-! ### C8 — password handling of the archive extractor -/

/-- C8: for an outer archive containing `<project-id>.zip` at the top
level (password protected), opening with no password raises the typed
`InvalidPasswordException`, and opening with a password the inner
archive cannot be decrypted with raises the same typed error; the error
is distinguishable from the other error kinds, and archives without
that file are opened without any password check. -/
theorem extract_invalid_password_typed (archive : OuterArchive) (pid : String)
    (v : Int) (h1 : getProjectId archive.files = .ok pid)
    (h2 : getSchemaVersion archive.xmlNamespace = .ok v) :
    ((pid ++ ".zip") ∈ archive.files →
      extract archive none = .error (.invalidPassword "Password required.") ∧
      ∀ p : String, p ≠ "" → archive.innerDecrypts p v = false →
        extract archive (some p) = .error (.invalidPassword "Invalid password.")) ∧
    (¬((pid ++ ".zip") ∈ archive.files) →
      ∀ pw : Option String, extract archive pw = .ok ⟨pid, false⟩) ∧
    (∀ m m2 m3 : String, KnxError.invalidPassword m ≠ .projectNotFound m2 ∧
      KnxError.invalidPassword m ≠ .unexpectedFileContent m3) := by
  refine ⟨?_, ?_, ?_⟩
  · intro hmem
    constructor
    · rw [extract, h1]
      simp only [Except.bind]
      rw [h2]
      simp [hmem]
    · intro p hp hd
      rw [extract, h1]
      simp only [Except.bind]
      rw [h2]
      simp [hmem, hp, hd]
  · intro hmem pw
    rw [extract, h1]
    simp only [Except.bind]
    rw [h2]
    simp [hmem]
  · intro m m2 m3
    exact ⟨by simp, by simp⟩

/-- Witness for C8 at a concrete protected archive (ETS6 namespace,
decryption failing for every password) and its unprotected variant. -/
theorem extract_invalid_password_typed_witness :
    extract ⟨["P-AB.signature", "P-AB.zip", "knx_master.xml"],
        "http://knx.org/xml/project/21", fun _ _ => false⟩ none =
      .error (.invalidPassword "Password required.") ∧
    extract ⟨["P-AB.signature", "P-AB.zip", "knx_master.xml"],
        "http://knx.org/xml/project/21", fun _ _ => false⟩ (some "wrong") =
      .error (.invalidPassword "Invalid password.") ∧
    extract ⟨["P-AB.signature", "knx_master.xml"],
        "http://knx.org/xml/project/21", fun _ _ => false⟩ (some "anything") =
      .ok ⟨"P-AB", false⟩ := by
  have hprot := extract_invalid_password_typed
    ⟨["P-AB.signature", "P-AB.zip", "knx_master.xml"],
      "http://knx.org/xml/project/21", fun _ _ => false⟩ "P-AB" 21
    (by rfl) (by rfl)
  have hopen := extract_invalid_password_typed
    ⟨["P-AB.signature", "knx_master.xml"],
      "http://knx.org/xml/project/21", fun _ _ => false⟩ "P-AB" 21
    (by rfl) (by rfl)
  refine ⟨(hprot.1 (by decide)).1, (hprot.1 (by decide)).2 "wrong" (by decide) rfl,
    hopen.2.1 (by decide) (some "anything")⟩

/-! ### C1 — communication-object output invariants -/

theorem resolveLinks_mem_addresses {gas : List XMLGroupAddressKeys}
    {ls : List String} {l : String} (h : l ∈ resolveLinks gas ls) :
    l ∈ gas.map (fun ga => ga.address) := by
  rw [resolveLinks, List.mem_filterMap] at h
  obtain ⟨link, _, hres⟩ := h
  rcases hget : gaIdToAddress gas link with _ | a
  · rw [hget] at hres
    simp at hres
  · rw [hget] at hres
    dsimp only at hres
    by_cases ha : a = ""
    · simp [ha] at hres
    · rw [if_neg ha] at hres
      simp only [Option.some.injEq] at hres
      subst hres
      rw [gaIdToAddress] at hget
      rcases hfind : List.find? (fun ga => ga.identifier = link) gas.reverse with _ | g
      · rw [hfind] at hget
        simp at hget
      · rw [hfind] at hget
        simp only [Option.map_some', Option.some.injEq] at hget
        have hg : g ∈ gas.reverse := List.mem_of_find?_eq_some hfind
        rw [List.mem_reverse] at hg
        rw [List.mem_map]
        exact ⟨g, hg, hget⟩

theorem fold_entries_mem (gas : List XMLGroupAddressKeys) (ia : String)
    (cos : List ComObjectInstanceRefLinks)
    (acc : List (String × List String) × List String)
    (kv : String × List String)
    (h : kv ∈ (cos.foldl (transformComObjectsStep gas ia) acc).1) :
    kv ∈ acc.1 ∨ ∃ co ∈ cos, ∃ ls, co.links = some ls ∧ ls ≠ [] ∧
      resolveLinks gas ls ≠ [] ∧
      kv = (ia ++ "/" ++ co.ref_id, resolveLinks gas ls) := by
  induction cos generalizing acc with
  | nil => exact Or.inl h
  | cons co rest ih =>
    rw [List.foldl_cons] at h
    rcases ih _ h with hacc | ⟨co', hco', rest'⟩
    · rw [transformComObjectsStep] at hacc
      rcases hlinks : co.links with _ | ls
      · rw [hlinks] at hacc
        exact Or.inl hacc
      · rw [hlinks] at hacc
        dsimp only at hacc
        by_cases hnil : ls = []
        · rw [if_pos hnil] at hacc
          exact Or.inl hacc
        · rw [if_neg hnil] at hacc
          by_cases hres : resolveLinks gas ls = []
          · rw [if_pos hres] at hacc
            exact Or.inl hacc
          · rw [if_neg hres] at hacc
            simp only [List.mem_append, List.mem_singleton] at hacc
            rcases hacc with hacc | rfl
            · exact Or.inl hacc
            · exact Or.inr ⟨co, by simp, ls, hlinks, hnil, hres, rfl⟩
    · exact Or.inr ⟨co', by simp [hco'], rest'⟩

theorem fold_key_not_mem (gas : List XMLGroupAddressKeys) (ia : String)
    (key : String) (cos : List ComObjectInstanceRefLinks)
    (acc : List (String × List String) × List String)
    (hco : ∀ co ∈ cos, ia ++ "/" ++ co.ref_id = key →
      co.links = none ∨ (∃ ls, co.links = some ls ∧ resolveLinks gas ls = []))
    (h1 : key ∉ acc.1.map Prod.fst) (h2 : key ∉ acc.2) :
    key ∉ (cos.foldl (transformComObjectsStep gas ia) acc).1.map Prod.fst ∧
      key ∉ (cos.foldl (transformComObjectsStep gas ia) acc).2 := by
  induction cos generalizing acc with
  | nil => exact ⟨h1, h2⟩
  | cons co rest ih =>
    rw [List.foldl_cons]
    refine ih _ (fun c hc => hco c (by simp [hc])) ?_ ?_
    · rw [transformComObjectsStep]
      rcases hlinks : co.links with _ | ls
      · exact h1
      · dsimp only
        by_cases hnil : ls = []
        · rw [if_pos hnil]
          exact h1
        · rw [if_neg hnil]
          by_cases hres : resolveLinks gas ls = []
          · rw [if_pos hres]
            exact h1
          · rw [if_neg hres]
            simp only [List.map_append, List.map_cons, List.map_nil, List.mem_append,
              List.mem_singleton]
            rintro (hmem | rfl)
            · exact h1 hmem
            · rcases hco co (by simp) rfl with hnone | ⟨ls', hls', hres'⟩
              · rw [hlinks] at hnone
                exact Option.noConfusion hnone
              · rw [hlinks] at hls'
                simp only [Option.some.injEq] at hls'
                subst hls'
                exact hres hres'
    · rw [transformComObjectsStep]
      rcases hlinks : co.links with _ | ls
      · exact h2
      · dsimp only
        by_cases hnil : ls = []
        · rw [if_pos hnil]
          exact h2
        · rw [if_neg hnil]
          by_cases hres : resolveLinks gas ls = []
          · rw [if_pos hres]
            exact h2
          · rw [if_neg hres]
            simp only [List.mem_append, List.mem_singleton]
            rintro (hmem | rfl)
            · exact h2 hmem
            · rcases hco co (by simp) rfl with hnone | ⟨ls', hls', hres'⟩
              · rw [hlinks] at hnone
                exact Option.noConfusion hnone
              · rw [hlinks] at hls'
                simp only [Option.some.injEq] at hls'
                subst hls'
                exact hres hres'

theorem key_append_inj {ia r r' : String}
    (h : ia ++ "/" ++ r = ia ++ "/" ++ r') : r = r' := by
  have hd : (ia ++ "/" ++ r).data = (ia ++ "/" ++ r').data := by rw [h]
  simp only [String.data_append] at hd
  have h2 := List.append_cancel_left hd
  cases r
  cases r'
  exact congrArg String.mk (by simpa using h2)

/-- C1: every communication-object entry the `_transform` loop emits for a
device has a non-empty `group_address_links` list whose members are all
addresses of loaded group addresses (the keys of the output
`group_addresses` dictionary), and is keyed `"<ia>/<ref-id>"`; and an
instance ref whose link list is `None`/empty, or whose links all fail to
resolve, contributes no key — assuming the device's instance-ref ids are
distinct, its key is absent both from the emitted
`communication_objects` entries and from the device's
`communication_object_ids`. -/
theorem transform_com_objects_invariants (gas : List XMLGroupAddressKeys)
    (device : DeviceForTransform) :
    (∀ kv ∈ (transformComObjects gas device).1,
      kv.2 ≠ [] ∧ (∀ l ∈ kv.2, l ∈ gas.map (fun ga => ga.address)) ∧
      ∃ co ∈ device.com_object_instance_refs,
        kv.1 = device.individual_address ++ "/" ++ co.ref_id) ∧
    ((device.com_object_instance_refs.map (fun co => co.ref_id)).Nodup →
      ∀ co ∈ device.com_object_instance_refs,
      (co.links = none ∨ (∃ ls, co.links = some ls ∧ resolveLinks gas ls = [])) →
      (device.individual_address ++ "/" ++ co.ref_id) ∉
          (transformComObjects gas device).1.map Prod.fst ∧
        (device.individual_address ++ "/" ++ co.ref_id) ∉
          (transformComObjects gas device).2) := by
  constructor
  · intro kv hkv
    rcases fold_entries_mem gas device.individual_address
        device.com_object_instance_refs ([], []) kv hkv with hnil | ⟨co, hco, ls, _, _, hres, rfl⟩
    · exact absurd hnil (by simp)
    · exact ⟨hres, fun l hl => resolveLinks_mem_addresses hl, co, hco, rfl⟩
  · intro hnodup co hco horphan
    refine fold_key_not_mem gas device.individual_address _ _ ([], []) ?_ (by simp) (by simp)
    intro co' hco' hkey
    have href : co'.ref_id = co.ref_id := key_append_inj hkey
    have : co' = co := by
      have hinj := List.inj_on_of_nodup_map hnodup
      exact hinj hco' hco href
    subst this
    exact horphan

/-- Witness for C1 at a concrete device: one instance ref with a
resolvable link (kept) and one whose only link resolves to no group
address (dropped). -/
theorem transform_com_objects_invariants_witness :
    ((transformComObjects [⟨"GA-1", "1/2/3"⟩]
        ⟨"1.1.1", [⟨"CO-1", some ["GA-1"]⟩, ⟨"CO-2", some ["GA-9"]⟩]⟩).1 =
      [("1.1.1/CO-1", ["1/2/3"])]) ∧
    ("1.1.1/CO-2" ∉ (transformComObjects [⟨"GA-1", "1/2/3"⟩]
        ⟨"1.1.1", [⟨"CO-1", some ["GA-1"]⟩, ⟨"CO-2", some ["GA-9"]⟩]⟩).1.map Prod.fst ∧
      "1.1.1/CO-2" ∉ (transformComObjects [⟨"GA-1", "1/2/3"⟩]
        ⟨"1.1.1", [⟨"CO-1", some ["GA-1"]⟩, ⟨"CO-2", some ["GA-9"]⟩]⟩).2) := by
  constructor
  · decide
  · exact (transform_com_objects_invariants [⟨"GA-1", "1/2/3"⟩]
      ⟨"1.1.1", [⟨"CO-1", some ["GA-1"]⟩, ⟨"CO-2", some ["GA-9"]⟩]⟩).2
      (by decide) ⟨"CO-2", some ["GA-9"]⟩ (by decide)
      (Or.inr ⟨["GA-9"], rfl, by decide⟩)

/-! ### Split and bit-mask lemmas for address formatting -/

theorem pySplitOnce_append_sep {sep : Char} {a : List Char}
    (ha : ∀ c ∈ a, c ≠ sep) (b : List Char) :
    pySplitOnce sep (a ++ sep :: b) = (a, some b) := by
  induction a with
  | nil => simp [pySplitOnce]
  | cons c t ih =>
    have hc : ¬(c = sep) := ha c (by simp)
    rw [List.cons_append, pySplitOnce, if_neg hc,
      ih (fun d hd => ha d (by simp [hd]))]

theorem pySplitChar_ne_nil (sep : Char) (l : List Char) :
    pySplitChar sep l ≠ [] := by
  cases l with
  | nil => simp [pySplitChar]
  | cons c t =>
    rw [pySplitChar]
    by_cases hc : c = sep
    · simp [hc]
    · rw [if_neg hc]
      rcases h : pySplitChar sep t with _ | ⟨p, ps⟩ <;> simp

theorem pySplitChar_append_sep {sep : Char} {a : List Char}
    (ha : ∀ c ∈ a, c ≠ sep) (b : List Char) :
    pySplitChar sep (a ++ sep :: b) = a :: pySplitChar sep b := by
  induction a with
  | nil => simp [pySplitChar]
  | cons c t ih =>
    have hc : ¬(c = sep) := ha c (by simp)
    rw [List.cons_append, pySplitChar, if_neg hc,
      ih (fun d hd => ha d (by simp [hd]))]

theorem pySplitChar_no_sep {sep : Char} {a : List Char}
    (ha : ∀ c ∈ a, c ≠ sep) : pySplitChar sep a = [a] := by
  induction a with
  | nil => simp [pySplitChar]
  | cons c t ih =>
    have hc : ¬(c = sep) := ha c (by simp)
    rw [pySplitChar, if_neg hc, ih (fun d hd => ha d (by simp [hd]))]

theorem testBit_63488 (i : Nat) :
    Nat.testBit 63488 (11 + i) = decide (i < 5) := by
  by_cases h : i < 5
  · interval_cases i <;> decide
  · have hlt : 63488 < 2 ^ (11 + i) :=
      lt_of_lt_of_le (by norm_num : (63488 : Nat) < 2 ^ 16)
        (Nat.pow_le_pow_right (by norm_num) (by omega))
    rw [Nat.testBit_lt_two_pow hlt]
    simp [h]

theorem testBit_1792 (i : Nat) :
    Nat.testBit 1792 (8 + i) = decide (i < 3) := by
  by_cases h : i < 3
  · interval_cases i <;> decide
  · have hlt : 1792 < 2 ^ (8 + i) :=
      lt_of_lt_of_le (by norm_num : (1792 : Nat) < 2 ^ 11)
        (Nat.pow_le_pow_right (by norm_num) (by omega))
    rw [Nat.testBit_lt_two_pow hlt]
    simp [h]

theorem and_mask_hi5 (r : Nat) : (r &&& 63488) >>> 11 = r / 2048 % 32 := by
  apply Nat.eq_of_testBit_eq
  intro i
  have e1 : r / 2048 % 32 = (r >>> 11) % 2 ^ 5 := by
    rw [Nat.shiftRight_eq_div_pow]
    norm_num
  rw [Nat.testBit_shiftRight, Nat.testBit_and, testBit_63488, e1,
    Nat.testBit_mod_two_pow, Nat.testBit_shiftRight]
  cases hbit : r.testBit (11 + i) <;> by_cases h5 : i < 5 <;> simp [h5]

theorem and_mask_mid3 (r : Nat) : (r &&& 1792) >>> 8 = r / 256 % 8 := by
  apply Nat.eq_of_testBit_eq
  intro i
  have e1 : r / 256 % 8 = (r >>> 8) % 2 ^ 3 := by
    rw [Nat.shiftRight_eq_div_pow]
    norm_num
  rw [Nat.testBit_shiftRight, Nat.testBit_and, testBit_1792, e1,
    Nat.testBit_mod_two_pow, Nat.testBit_shiftRight]
  cases hbit : r.testBit (8 + i) <;> by_cases h3 : i < 3 <;> simp [h3]

theorem and_mask_lo8 (r : Nat) : r &&& 255 = r % 256 := by
  have := Nat.and_pow_two_sub_one_eq_mod r 8
  norm_num at this
  exact this

theorem and_mask_lo11 (r : Nat) : r &&& 2047 = r % 2048 := by
  have := Nat.and_pow_two_sub_one_eq_mod r 11
  norm_num at this
  exact this

theorem strAddressChars_twolevel (r : Nat) :
    strAddressChars r .TWOLEVEL = toDec (r / 2048 % 32) ++ '/' :: toDec (r % 2048) := by
  simp only [strAddressChars, and_mask_hi5, and_mask_lo11]

theorem strAddressChars_threelevel (r : Nat) :
    strAddressChars r .THREELEVEL =
      toDec (r / 2048 % 32) ++ '/' ::
        (toDec (r / 256 % 8) ++ '/' :: toDec (r % 256)) := by
  simp only [strAddressChars, and_mask_hi5, and_mask_mid3, and_mask_lo8,
    List.cons_append, List.append_assoc]

/-! ### C10 — group-range output keys -/

/-- C10: group-range output keys depend only on the range's start/end and
the project's address style: the dictionary of
`_recursive_convert_group_range` keys each range by its `str_address()`;
free style yields `"<start>...<end>"`, two-level yields only the main
group (top 5 bits) of the formatted start address, three-level yields
`"main/middle"`, collapsed to the main group alone when
`range_end - range_start ≥ 2046`. -/
theorem group_range_key_formula (group_ranges : List GroupRangeTree) :
    (recursiveConvertKeys group_ranges =
      group_ranges.map (fun g => groupRangeStrAddress g.data)) ∧
    (∀ gr : XMLGroupRangeData, gr.style = .FREE →
      groupRangeStrAddress gr =
        toDec gr.range_start ++ '.' :: '.' :: '.' :: toDec gr.range_end) ∧
    (∀ gr : XMLGroupRangeData, gr.style = .TWOLEVEL →
      groupRangeStrAddress gr = toDec (gr.range_start / 2048 % 32)) ∧
    (∀ gr : XMLGroupRangeData, gr.style = .THREELEVEL →
      groupRangeStrAddress gr =
        if gr.range_end - gr.range_start ≥ 2046 then
          toDec (gr.range_start / 2048 % 32)
        else
          toDec (gr.range_start / 2048 % 32) ++ '/' ::
            toDec (gr.range_start / 256 % 8)) ∧
    (∀ g1 g2 : XMLGroupRangeData, g1.range_start = g2.range_start →
      g1.range_end = g2.range_end → g1.style = g2.style →
      groupRangeStrAddress g1 = groupRangeStrAddress g2) := by
  have htwo : ∀ gr : XMLGroupRangeData, gr.style = .TWOLEVEL →
      groupRangeStrAddress gr = toDec (gr.range_start / 2048 % 32) := by
    intro gr hs
    simp only [groupRangeStrAddress, hs]
    rw [strAddressChars_twolevel,
      pySplitOnce_append_sep (toDec_no_slash _) _]
  have hthree : ∀ gr : XMLGroupRangeData, gr.style = .THREELEVEL →
      groupRangeStrAddress gr =
        if gr.range_end - gr.range_start ≥ 2046 then
          toDec (gr.range_start / 2048 % 32)
        else
          toDec (gr.range_start / 2048 % 32) ++ '/' ::
            toDec (gr.range_start / 256 % 8) := by
    intro gr hs
    simp only [groupRangeStrAddress, hs]
    rw [strAddressChars_threelevel,
      pySplitChar_append_sep (toDec_no_slash _) _,
      pySplitChar_append_sep (toDec_no_slash _) _,
      pySplitChar_no_sep (toDec_no_slash _)]
    by_cases hr : gr.range_end - gr.range_start ≥ 2046
    · rw [if_pos hr, if_pos hr]
      rfl
    · rw [if_neg hr, if_neg hr]
  refine ⟨rfl, ?_, htwo, hthree, ?_⟩
  · intro gr hs
    simp only [groupRangeStrAddress, hs]
  · intro g1 g2 h1 h2 h3
    rcases hs : g1.style with _ | _ | _
    · have hs2 : g2.style = .FREE := by rw [← h3, hs]
      simp only [groupRangeStrAddress, hs, hs2, h1, h2]
    · rw [htwo g1 hs, htwo g2 (by rw [← h3, hs]), h1]
    · rw [hthree g1 hs, hthree g2 (by rw [← h3, hs]), h1, h2]

/-- Witness for C10 at a concrete range list (style-specific formulas are
instantiated on three concrete ranges, start 0x1234, end 0x1834). -/
theorem group_range_key_formula_witness :
    groupRangeStrAddress ⟨"a", 4660, 6196, .TWOLEVEL⟩ = toDec 2 ∧
    groupRangeStrAddress ⟨"a", 4660, 6196, .THREELEVEL⟩ = toDec 2 ++ '/' :: toDec 2 ∧
    groupRangeStrAddress ⟨"a", 4660, 6196, .FREE⟩ =
      toDec 4660 ++ '.' :: '.' :: '.' :: toDec 6196 := by
  have h := group_range_key_formula []
  refine ⟨?_, ?_, h.2.1 ⟨"a", 4660, 6196, .FREE⟩ rfl⟩
  · rw [h.2.2.1 ⟨"a", 4660, 6196, .TWOLEVEL⟩ rfl]
    norm_num
  · rw [h.2.2.2.1 ⟨"a", 4660, 6196, .THREELEVEL⟩ rfl]
    norm_num

/-! ### C3 — group-address formatting: totality and round-trip -/

/-- C3: formatting of a raw group address is total in `(raw, style)` (the
embedded `strAddressChars` is a total function over the three-member
style enum) and follows the documented bit layout; for every raw value
in `0..65535` the reference parse recovers it, hence formatting is
injective within each style. -/
theorem str_address_roundtrip :
    (∀ (r : Nat) (s : GroupAddressStyle), r ≤ 65535 →
      refParseAddress (strAddressChars r s) s = some r) ∧
    (∀ (r1 r2 : Nat) (s : GroupAddressStyle), r1 ≤ 65535 → r2 ≤ 65535 →
      strAddressChars r1 s = strAddressChars r2 s → r1 = r2) := by
  have hmain : ∀ (r : Nat) (s : GroupAddressStyle), r ≤ 65535 →
      refParseAddress (strAddressChars r s) s = some r := by
    intro r s hr
    rcases s with _ | _ | _
    · rw [strAddressChars, refParseAddress, parseDec?_toDec]
    · rw [strAddressChars_twolevel, refParseAddress,
        pySplitChar_append_sep (toDec_no_slash _) _,
        pySplitChar_no_sep (toDec_no_slash _)]
      dsimp only
      rw [parseDec?_toDec, parseDec?_toDec]
      simp only [Option.some_bind, Option.bind_some, Option.map_some', Option.some.injEq]
      have hm : r / 2048 % 32 = r / 2048 := Nat.mod_eq_of_lt (by omega)
      rw [hm]
      omega
    · rw [strAddressChars_threelevel, refParseAddress,
        pySplitChar_append_sep (toDec_no_slash _) _,
        pySplitChar_append_sep (toDec_no_slash _) _,
        pySplitChar_no_sep (toDec_no_slash _)]
      dsimp only
      rw [parseDec?_toDec, parseDec?_toDec, parseDec?_toDec]
      simp only [Option.some_bind, Option.bind_some, Option.map_some', Option.some.injEq]
      have hm : r / 2048 % 32 = r / 2048 := Nat.mod_eq_of_lt (by omega)
      rw [hm]
      omega
  refine ⟨hmain, fun r1 r2 s h1 h2 heq => ?_⟩
  have e1 := hmain r1 s h1
  have e2 := hmain r2 s h2
  rw [heq, e2] at e1
  exact (Option.some.injEq _ _ ▸ e1).symm

/-- Witness for C3 at the spec's unit scenario: raw `0x4806` in
three-level style formats to `9/0/6` and parses back. -/
theorem str_address_roundtrip_witness :
    refParseAddress (strAddressChars 18438 .THREELEVEL) .THREELEVEL = some 18438 ∧
      str_address 18438 .THREELEVEL = "9/0/6" := by
  refine ⟨str_address_roundtrip.1 18438 .THREELEVEL (by norm_num), ?_⟩
  decide

/-! ### C7 — template placeholder substitution -/

theorem hasInfix_cons_false {pat : List Char} {c : Char} {t : List Char}
    (h : hasInfix pat (c :: t) = false) :
    pat.isPrefixOf (c :: t) = false ∧ hasInfix pat t = false := by
  rw [hasInfix] at h
  exact Bool.or_eq_false_iff.mp h

theorem tmplLazy_spec (v b : List Char) (hnl : ∀ c ∈ v, c ≠ '\n')
    (hnoinf : hasInfix [rbrace, rbrace] v = false)
    (hlast : v.getLast? ≠ some rbrace) :
    tmplLazy (v ++ rbrace :: rbrace :: b) = some (v, b) := by
  induction v with
  | nil => simp [tmplLazy]
  | cons c t ih =>
    cases t with
    | nil =>
      have hc : c ≠ rbrace := by
        intro h
        exact hlast (by simp [h])
      rw [List.cons_append, List.nil_append, tmplLazy,
        if_neg (by rintro ⟨h1, _⟩; exact hc h1), if_neg (hnl c (by simp)),
        tmplLazy, if_pos ⟨rfl, rfl⟩]
      rfl
    | cons d t2 =>
      obtain ⟨hpre, hinf⟩ := hasInfix_cons_false hnoinf
      have hcd : ¬(c = rbrace ∧ d = rbrace) := by
        rintro ⟨rfl, rfl⟩
        simp [List.isPrefixOf] at hpre
      have ih2 : tmplLazy (d :: (t2 ++ rbrace :: rbrace :: b)) = some (d :: t2, b) := by
        rw [← List.cons_append]
        exact ih (fun x hx => hnl x (by simp [hx])) hinf
          (by rw [List.getLast?_cons_cons] at hlast; exact hlast)
      simp only [List.cons_append]
      rw [tmplLazy, if_neg hcd, if_neg (hnl c (by simp)), ih2]
      rfl

theorem tmplMatchAt_none_of_not_prefix {s : List Char}
    (h : (lbrace :: lbrace :: '0' :: []).isPrefixOf s = false) :
    tmplMatchAt s = none := by
  rw [tmplMatchAt, if_neg (by simp [h])]

theorem tmplMatchAt_template_colon (r b : List Char)
    (hnl : ∀ c ∈ r, c ≠ '\n')
    (hnoinf : hasInfix [rbrace, rbrace] r = false)
    (hlast : r.getLast? ≠ some rbrace) :
    tmplMatchAt ([lbrace, lbrace, '0'] ++ (':' :: r) ++ [rbrace, rbrace] ++ b) =
      some (r, r.length + 1) := by
  rw [tmplMatchAt, if_pos (by simp [List.isPrefixOf])]
  have hdrop : ([lbrace, lbrace, '0'] ++ (':' :: r) ++ [rbrace, rbrace] ++ b).drop 3 =
      ':' :: (r ++ rbrace :: rbrace :: b) := by
    simp
  rw [hdrop]
  dsimp only
  rw [if_pos rfl, tmplLazy_spec r b hnl hnoinf hlast]

theorem tmplMatchAt_template_plain (u b : List Char)
    (hhead : u.head? ≠ some ':')
    (hnl : ∀ c ∈ u, c ≠ '\n')
    (hnoinf : hasInfix [rbrace, rbrace] u = false)
    (hlast : u.getLast? ≠ some rbrace) :
    tmplMatchAt ([lbrace, lbrace, '0'] ++ u ++ [rbrace, rbrace] ++ b) =
      some (u, u.length) := by
  rw [tmplMatchAt, if_pos (by simp [List.isPrefixOf])]
  have hdrop : ([lbrace, lbrace, '0'] ++ u ++ [rbrace, rbrace] ++ b).drop 3 =
      u ++ rbrace :: rbrace :: b := by
    simp
  rw [hdrop]
  cases u with
  | nil =>
    rw [List.nil_append]
    dsimp only
    rw [if_neg (by decide : ¬(rbrace = ':')), tmplLazy, if_pos ⟨rfl, rfl⟩]
    rfl
  | cons c t =>
    have hc : ¬(c = ':') := by
      intro h
      exact hhead (by simp [h])
    rw [List.cons_append]
    dsimp only
    rw [if_neg hc]
    have : tmplLazy (c :: (t ++ rbrace :: rbrace :: b)) = some (c :: t, b) := by
      rw [← List.cons_append]
      exact tmplLazy_spec (c :: t) b hnl hnoinf hlast
    rw [this]
    rfl

theorem tmplSub_fixed_of_no_occurrence (param : Option ParameterInstanceRef) :
    ∀ s : List Char, hasInfix [lbrace, lbrace, '0'] s = false →
      tmplSub param s = s := by
  intro s
  induction s with
  | nil => intro _; rfl
  | cons c t ih =>
    intro h
    obtain ⟨hpre, hinf⟩ := hasInfix_cons_false h
    rw [tmplSub_cons, tmplMatchAt_none_of_not_prefix hpre, ih hinf]

theorem tmplSub_append_of_no_match (param : Option ParameterInstanceRef)
    (X : List Char) :
    ∀ a : List Char,
      (∀ a1 a2 : List Char, a = a1 ++ a2 → a2 ≠ [] → tmplMatchAt (a2 ++ X) = none) →
      tmplSub param (a ++ X) = a ++ tmplSub param X := by
  intro a
  induction a with
  | nil => intro _; simp
  | cons c t ih =>
    intro h
    rw [List.cons_append, tmplSub_cons]
    rw [show c :: (t ++ X) = (c :: t) ++ X from rfl,
      h [] (c :: t) (by simp) (by simp)]
    rw [show (c :: t) ++ X = c :: (t ++ X) from rfl,
      ih (fun a1 a2 he hne => h (c :: a1) a2 (by simp [he]) hne)]
    rfl

theorem hasInfix_append_right_false :
    ∀ (a1 : List Char) {a2 pat : List Char},
      hasInfix pat (a1 ++ a2) = false → hasInfix pat a2 = false := by
  intro a1
  induction a1 with
  | nil => intro a2 pat h; simpa using h
  | cons c t ih =>
    intro a2 pat h
    rw [List.cons_append] at h
    exact ih (hasInfix_cons_false h).2

theorem no_match_before_template {a : List Char}
    (ha : hasInfix [lbrace, lbrace, '0'] a = false) (rest : List Char) :
    ∀ a1 a2 : List Char, a = a1 ++ a2 → a2 ≠ [] →
      tmplMatchAt (a2 ++ (lbrace :: lbrace :: '0' :: rest)) = none := by
  intro a1 a2 he hne
  apply tmplMatchAt_none_of_not_prefix
  match a2, hne with
  | [c], _ =>
    simp [List.isPrefixOf, lbrace]
  | [c, d], _ =>
    simp [List.isPrefixOf, lbrace]
  | c :: d :: e :: t2, _ =>
    have hsub : hasInfix [lbrace, lbrace, '0'] (c :: d :: e :: t2) = false := by
      subst he
      exact hasInfix_append_right_false a1 ha
    have hpre := (hasInfix_cons_false hsub).1
    simp only [List.isPrefixOf, List.cons_append] at hpre ⊢
    exact hpre

/-- C7 (amended): the template substitution of
`text_parameter_template_replace` rewrites each `{{0…}}` occurrence —
`{{0:rest}}` and, colon omitted, `{{0rest}}` — to the bound parameter's
value, or to `rest` when no parameter is bound or its value is `None` or
empty; text without any `{{0` occurrence (in particular placeholders not
beginning with `0`, such as `{{1}}` or `{{XY}}`) is left unchanged;
occurrences are processed non-overlapping left-to-right; in particular
`{{1}}` with a bound value `"test"` stays `{{1}}`. -/
theorem template_replace_spec :
    (∀ (s : List Char) (param : Option ParameterInstanceRef),
      hasInfix [lbrace, lbrace, '0'] s = false → tmplSub param s = s) ∧
    (∀ (a r b : List Char) (param : Option ParameterInstanceRef),
      hasInfix [lbrace, lbrace, '0'] a = false →
      (∀ c ∈ r, c ≠ '\n') →
      hasInfix [rbrace, rbrace] r = false →
      r.getLast? ≠ some rbrace →
      tmplSub param (a ++ [lbrace, lbrace, '0', ':'] ++ r ++ [rbrace, rbrace] ++ b) =
        a ++ tmplReplacement param r ++ tmplSub param b) ∧
    (∀ (u b : List Char) (param : Option ParameterInstanceRef),
      u.head? ≠ some ':' →
      (∀ c ∈ u, c ≠ '\n') →
      hasInfix [rbrace, rbrace] u = false →
      u.getLast? ≠ some rbrace →
      tmplSub param ([lbrace, lbrace, '0'] ++ u ++ [rbrace, rbrace] ++ b) =
        tmplReplacement param u ++ tmplSub param b) ∧
    (tmplSub (some ⟨"P", some "test"⟩) [lbrace, lbrace, '1', rbrace, rbrace] =
      [lbrace, lbrace, '1', rbrace, rbrace]) := by
  have hplain : ∀ (u b : List Char) (param : Option ParameterInstanceRef),
      u.head? ≠ some ':' →
      (∀ c ∈ u, c ≠ '\n') →
      hasInfix [rbrace, rbrace] u = false →
      u.getLast? ≠ some rbrace →
      tmplSub param ([lbrace, lbrace, '0'] ++ u ++ [rbrace, rbrace] ++ b) =
        tmplReplacement param u ++ tmplSub param b := by
    intro u b param hhead hnl hinf hlast
    have hm := tmplMatchAt_template_plain u b hhead hnl hinf hlast
    rw [show [lbrace, lbrace, '0'] ++ u ++ [rbrace, rbrace] ++ b =
      lbrace :: (lbrace :: '0' :: (u ++ [rbrace, rbrace] ++ b)) from by simp] at hm ⊢
    rw [tmplSub_cons, hm]
    dsimp only
    have hdrop : (lbrace :: (lbrace :: '0' :: (u ++ [rbrace, rbrace] ++ b))).drop
        (u.length + 5) = b := by
      rw [show lbrace :: (lbrace :: '0' :: (u ++ [rbrace, rbrace] ++ b)) =
        ([lbrace, lbrace, '0'] ++ u ++ [rbrace, rbrace]) ++ b from by simp,
        show u.length + 5 = ([lbrace, lbrace, '0'] ++ u ++ [rbrace, rbrace]).length
          from by simp]
      exact List.drop_left _ _
    rw [hdrop]
  have hcolon : ∀ (r b : List Char) (param : Option ParameterInstanceRef),
      (∀ c ∈ r, c ≠ '\n') →
      hasInfix [rbrace, rbrace] r = false →
      r.getLast? ≠ some rbrace →
      tmplSub param ([lbrace, lbrace, '0', ':'] ++ r ++ [rbrace, rbrace] ++ b) =
        tmplReplacement param r ++ tmplSub param b := by
    intro r b param hnl hinf hlast
    have hm := tmplMatchAt_template_colon r b hnl hinf hlast
    rw [show [lbrace, lbrace, '0'] ++ (':' :: r) ++ [rbrace, rbrace] ++ b =
      lbrace :: (lbrace :: '0' :: (':' :: (r ++ [rbrace, rbrace] ++ b)))
      from by simp] at hm
    rw [show [lbrace, lbrace, '0', ':'] ++ r ++ [rbrace, rbrace] ++ b =
      lbrace :: (lbrace :: '0' :: (':' :: (r ++ [rbrace, rbrace] ++ b)))
      from by simp]
    rw [tmplSub_cons, hm]
    dsimp only
    have hdrop : (lbrace :: (lbrace :: '0' :: (':' :: (r ++ [rbrace, rbrace] ++ b)))).drop
        (r.length + 1 + 5) = b := by
      rw [show lbrace :: (lbrace :: '0' :: (':' :: (r ++ [rbrace, rbrace] ++ b))) =
        ([lbrace, lbrace, '0', ':'] ++ r ++ [rbrace, rbrace]) ++ b from by simp,
        show r.length + 1 + 5 = ([lbrace, lbrace, '0', ':'] ++ r ++ [rbrace, rbrace]).length
          from by simp]
      exact List.drop_left _ _
    rw [hdrop]
  refine ⟨fun s param h => tmplSub_fixed_of_no_occurrence param s h, ?_, ?_, by decide⟩
  · intro a r b param ha hnl hinf hlast
    have hnom := no_match_before_template ha (':' :: (r ++ [rbrace, rbrace] ++ b))
    rw [show a ++ [lbrace, lbrace, '0', ':'] ++ r ++ [rbrace, rbrace] ++ b =
      a ++ ([lbrace, lbrace, '0', ':'] ++ r ++ [rbrace, rbrace] ++ b) from by simp,
      tmplSub_append_of_no_match param _ a (by
        intro a1 a2 he hne
        have := hnom a1 a2 he hne
        rw [show a2 ++ (lbrace :: lbrace :: '0' :: (':' :: (r ++ [rbrace, rbrace] ++ b))) =
          a2 ++ ([lbrace, lbrace, '0', ':'] ++ r ++ [rbrace, rbrace] ++ b)
          from by simp] at this
        exact this),
      hcolon r b param hnl hinf hlast, List.append_assoc]
  · intro u b param hhead hnl hinf hlast
    exact hplain u b param hhead hnl hinf hlast

/-- Counterexample for C7 as stated: `{{01}}` is a placeholder other than
`{{0}}` and `{{0:default}}`, so by the claim it must stay unchanged; the
code substitutes it (optional colon), yielding `"1"` with no bound
parameter. -/
theorem template_replace_counterexample :
    text_parameter_template_replace
        (String.mk [lbrace, lbrace, '0', '1', rbrace, rbrace]) none = "1" ∧
      String.mk [lbrace, lbrace, '0', '1', rbrace, rbrace] ≠ "1" := by
  constructor
  · decide
  · decide

/-- Witness for C7 (amended) at concrete inputs: `"Hi {{0:def} again"`
shape with no parameter bound becomes `"Hi def x"`, and `"{{XY}}"` stays
unchanged. -/
theorem template_replace_spec_witness :
    tmplSub none (['H', 'i', ' '] ++ [lbrace, lbrace, '0', ':'] ++ ['d', 'e', 'f'] ++
        [rbrace, rbrace] ++ [' ', 'x']) =
      ['H', 'i', ' '] ++ tmplReplacement none ['d', 'e', 'f'] ++
        tmplSub none [' ', 'x'] ∧
    tmplSub none [lbrace, lbrace, 'X', 'Y', rbrace, rbrace] =
      [lbrace, lbrace, 'X', 'Y', rbrace, rbrace] := by
  refine ⟨template_replace_spec.2.1 ['H', 'i', ' '] ['d', 'e', 'f'] [' ', 'x'] none
    (by decide) (by decide) (by decide) (by decide),
    template_replace_spec.1 [lbrace, lbrace, 'X', 'Y', rbrace, rbrace] none (by decide)⟩

/-! ### C6 — get_module_instance_part -/

theorem findSome?_desc_of_max {α : Type} (f : Nat → Option α) :
    ∀ (n j : Nat), j ≤ n → (f j).isSome →
      (∀ j', j < j' → j' ≤ n → f j' = none) →
      (List.range (n + 1)).reverse.findSome? f = f j := by
  intro n
  induction n with
  | zero =>
    intro j hj hs _
    have : j = 0 := by omega
    subst this
    rcases hf0 : f 0 with _ | v
    · rw [hf0] at hs
      simp at hs
    · simp [List.range_succ, List.findSome?_cons, hf0]
  | succ n ih =>
    intro j hj hs hmax
    have hrev : (List.range (n + 2)).reverse = (n + 1) :: (List.range (n + 1)).reverse := by
      rw [List.range_succ]
      simp
    rw [hrev, List.findSome?_cons]
    by_cases hje : j = n + 1
    · subst hje
      rcases hv : f (n + 1) with _ | v
      · rw [hv] at hs
        simp at hs
      · simp [hv]
    · rw [hmax (n + 1) (by omega) (le_refl _)]
      exact ih j (by omega) hs (fun j' h1 h2 => hmax j' h1 (by omega))

theorem findSome?_desc_inv {α : Type} (f : Nat → Option α) :
    ∀ (n : Nat) (v : α), (List.range (n + 1)).reverse.findSome? f = some v →
      ∃ j, j ≤ n ∧ f j = some v ∧ ∀ j', j < j' → j' ≤ n → f j' = none := by
  intro n
  induction n with
  | zero =>
    intro v h
    simp only [List.range_succ, List.range_zero, List.nil_append,
      List.reverse_cons, List.reverse_nil, List.nil_append,
      List.findSome?_cons] at h
    rcases hf0 : f 0 with _ | w
    · rw [hf0] at h
      simp at h
    · rw [hf0] at h
      dsimp only at h
      exact ⟨0, le_refl _, by rw [hf0, h], by omega⟩
  | succ n ih =>
    intro v h
    have hrev : (List.range (n + 2)).reverse = (n + 1) :: (List.range (n + 1)).reverse := by
      rw [List.range_succ]
      simp
    rw [hrev, List.findSome?_cons] at h
    rcases hft : f (n + 1) with _ | w
    · rw [hft] at h
      obtain ⟨j, hj, hfj, hmax⟩ := ih v h
      exact ⟨j, by omega, hfj, fun j' h1 h2 => by
        by_cases he : j' = n + 1
        · subst he
          exact hft
        · exact hmax j' h1 (by omega)⟩
    · rw [hft] at h
      simp only [Option.some.injEq] at h
      subst h
      exact ⟨n + 1, le_refl _, hft, by omega⟩

theorem mdMatchHere_none_of_not_prefix {k s : List Char}
    (h : (['M', 'D', '-'] : List Char).isPrefixOf s = false) :
    mdMatchHere k s = none := by
  rw [mdMatchHere.eq_def]
  split
  · simp [List.isPrefixOf] at h
  · rfl

theorem mdSearchFrom_none_of_no_md {k : List Char} :
    ∀ s : List Char, hasInfix ['M', 'D', '-'] s = false →
      mdSearchFrom k s = none := by
  intro s
  induction s with
  | nil => intro _; rfl
  | cons c t ih =>
    intro h
    obtain ⟨hpre, hinf⟩ := hasInfix_cons_false h
    rw [mdSearchFrom, mdMatchHere_none_of_not_prefix hpre, ih hinf]

theorem mdSearchFrom_some_inv {k : List Char} :
    ∀ (s : List Char) (g : List Char), mdSearchFrom k s = some g →
      ∃ i, mdMatchHere k (s.drop i) = some g ∧
        ∀ i' < i, mdMatchHere k (s.drop i') = none := by
  intro s
  induction s with
  | nil => intro g h; simp [mdSearchFrom] at h
  | cons c t ih =>
    intro g h
    rw [mdSearchFrom] at h
    rcases hm : mdMatchHere k (c :: t) with _ | g'
    · rw [hm] at h
      obtain ⟨i, hi, hmax⟩ := ih g h
      refine ⟨i + 1, by simpa using hi, ?_⟩
      intro i' hi'
      cases i' with
      | zero => exact hm
      | succ i2 => simpa using hmax i2 (by omega)
    · rw [hm] at h
      simp only [Option.some.injEq] at h
      subst h
      exact ⟨0, hm, by omega⟩

theorem takeWhile_prefix_le {p : Char → Bool} {u : List Char} {j : Nat}
    (hj : j ≤ u.length) (h : ∀ c ∈ u.take j, p c = true) :
    j ≤ (u.takeWhile p).length := by
  induction u generalizing j with
  | nil => simpa using hj
  | cons c t ih =>
    cases j with
    | zero => omega
    | succ j2 =>
      have hpc : p c = true := h c (by simp)
      have hrec := ih (j := j2) (by simpa using hj)
        (fun x hx => h x (by rw [List.take_succ_cons]; exact List.mem_cons_of_mem c hx))
      simp only [List.takeWhile_cons, hpc, if_true, List.length_cons]
      omega

theorem take_of_takeWhile_mem {p : Char → Bool} {u : List Char} {j : Nat}
    (hj : j ≤ (u.takeWhile p).length) : ∀ c ∈ u.take j, p c = true := by
  intro c hc
  have hpref : u.take j = (u.takeWhile p).take j := by
    conv_lhs => rw [← List.takeWhile_append_dropWhile (p := p) (l := u)]
    rw [List.take_append_of_le_length hj]
  rw [hpref] at hc
  exact List.mem_takeWhile_imp (List.mem_of_mem_take hc)

theorem findSome?_desc_isSome {α : Type} (f : Nat → Option α) (n j : Nat)
    (hj : j ≤ n) (hs : (f j).isSome) :
    ((List.range (n + 1)).reverse.findSome? f).isSome := by
  rcases hres : (List.range (n + 1)).reverse.findSome? f with _ | v
  · have := List.findSome?_eq_none_iff.mp hres j (by simp; omega)
    rw [this] at hs
    simp at hs
  · simp

theorem mdMatchHere_some_inv {k s g : List Char} (h : mdMatchHere k s = some g) :
    ∃ u j, s = 'M' :: 'D' :: '-' :: u ∧
      j ≤ (u.takeWhile (fun c => c ≠ '\n')).length ∧
      ('_' :: (k ++ ['-'])).isPrefixOf (u.drop j) = true ∧
      g = 'M' :: 'D' :: '-' :: u.take j ∧
      (∀ j', j < j' → j' ≤ (u.takeWhile (fun c => c ≠ '\n')).length →
        ('_' :: (k ++ ['-'])).isPrefixOf (u.drop j') = false) := by
  rw [mdMatchHere.eq_def] at h
  split at h
  · next u =>
    obtain ⟨j, hj, hfj, hmax⟩ := findSome?_desc_inv _ _ _ h
    by_cases hpre : ('_' :: (k ++ ['-'])).isPrefixOf (u.drop j) = true
    · rw [if_pos hpre] at hfj
      simp only [Option.some.injEq] at hfj
      refine ⟨u, j, rfl, hj, hpre, hfj.symm, ?_⟩
      intro j' h1 h2
      have := hmax j' h1 h2
      by_cases hp2 : ('_' :: (k ++ ['-'])).isPrefixOf (u.drop j') = true
      · rw [if_pos hp2] at this
        simp at this
      · exact Bool.eq_false_iff.mpr hp2
    · rw [if_neg hpre] at hfj
      simp at hfj
  · simp at h

theorem mdMatchHere_of_decomp {k c q : List Char}
    (hc : ∀ ch ∈ c, ch ≠ '\n') :
    (mdMatchHere k ('M' :: 'D' :: '-' :: (c ++ '_' :: (k ++ '-' :: q)))).isSome := by
  rw [mdMatchHere.eq_def]
  have hlen : c.length ≤ ((c ++ '_' :: (k ++ '-' :: q)).takeWhile
      (fun ch => ch ≠ '\n')).length := by
    apply takeWhile_prefix_le (by simp)
    intro x hx
    rw [List.take_append_of_le_length (le_refl _), List.take_length] at hx
    simp only [decide_eq_true_eq]
    exact hc x hx
  apply findSome?_desc_isSome _ _ c.length (by omega)
  rw [List.drop_left c _, if_pos ?_]
  · simp
  · apply List.isPrefixOf_iff_prefix.mpr
    exact ⟨q, by simp⟩

/-- Counterexample for C6 as stated: with two `_CH-` occurrences the
greedy `.*` of the pattern `(MD-.*)_CH-` extends to the last one; the
claim's "up to the first occurrence" predicts `"MD-1"` but the code
returns `"MD-1_CH-2"`. -/
theorem get_module_instance_part_counterexample :
    get_module_instance_part "MD-1_CH-2_CH-3" "CH" = "MD-1_CH-2" ∧
      ("MD-1_CH-2" : String) ≠ "MD-1" := by
  constructor
  · decide
  · decide

/-- C6 (amended): `get_module_instance_part ref k` returns the empty
string when `ref` has no `MD-` occurrence (more generally whenever the
pattern cannot match), and otherwise returns `"MD-" ++ c` where the
`MD-` is at the leftmost position from which some `_<k>-` occurrence is
reachable over a newline-free gap, and the gap `c` extends greedily up
to (but excluding) the last such reachable occurrence of `_<k>-`; in
particular `get_module_instance_part "MD-1_M-1_MI-1_CH-4" "CH" =
"MD-1_M-1_MI-1"` and `get_module_instance_part "CH-SOM03" "CH" = ""`. -/
theorem get_module_instance_part_spec :
    (∀ ref next_id : String, hasInfix ['M', 'D', '-'] ref.data = false →
      get_module_instance_part ref next_id = "") ∧
    (∀ (ref next_id : String) (g : List Char),
      mdSearchFrom next_id.data ref.data = some g →
      get_module_instance_part ref next_id = String.mk g ∧
      ∃ p c q, ref.data = p ++ 'M' :: 'D' :: '-' ::
          (c ++ '_' :: (next_id.data ++ '-' :: q)) ∧
        (∀ ch ∈ c, ch ≠ '\n') ∧
        g = 'M' :: 'D' :: '-' :: c ∧
        (∀ c' q' : List Char,
          ref.data = p ++ 'M' :: 'D' :: '-' ::
            (c' ++ '_' :: (next_id.data ++ '-' :: q')) →
          (∀ ch ∈ c', ch ≠ '\n') → c'.length ≤ c.length) ∧
        (∀ p' c' q' : List Char,
          ref.data = p' ++ 'M' :: 'D' :: '-' ::
            (c' ++ '_' :: (next_id.data ++ '-' :: q')) →
          (∀ ch ∈ c', ch ≠ '\n') → p.length ≤ p'.length)) ∧
    (get_module_instance_part "MD-1_M-1_MI-1_CH-4" "CH" = "MD-1_M-1_MI-1" ∧
      get_module_instance_part "CH-SOM03" "CH" = "") := by
  refine ⟨?_, ?_, by decide, by decide⟩
  · intro ref next_id h
    rw [get_module_instance_part, mdSearchFrom_none_of_no_md ref.data h]
  · intro ref next_id g h
    constructor
    · rw [get_module_instance_part, h]
    obtain ⟨i, hi, hleft⟩ := mdSearchFrom_some_inv ref.data g h
    obtain ⟨u, j, hu, hj, hpre, hg, hmax⟩ := mdMatchHere_some_inv hi
    obtain ⟨q, hq⟩ := List.isPrefixOf_iff_prefix.mp hpre
    have hdq : u.drop j = '_' :: (next_id.data ++ '-' :: q) := by
      rw [← hq]
      simp
    have hu3 : u = u.take j ++ '_' :: (next_id.data ++ '-' :: q) := by
      conv_lhs => rw [← List.take_append_drop j u]
      rw [hdq]
    have hile : i ≤ ref.data.length := by
      by_contra hgt
      rw [List.drop_eq_nil_of_le (by omega)] at hu
      exact absurd hu (by simp)
    have htake_i : (ref.data.take i).length = i := by
      rw [List.length_take]
      omega
    have hjle : j ≤ u.length :=
      le_trans hj ((u.takeWhile_prefix _).length_le)
    have htake_j : (u.take j).length = j := by
      rw [List.length_take]
      omega
    refine ⟨ref.data.take i, u.take j, q, ?_, ?_, hg, ?_, ?_⟩
    · conv_lhs => rw [← List.take_append_drop i ref.data, hu, hu3]
    · intro ch hch
      have := take_of_takeWhile_mem hj ch hch
      simpa using this
    · intro c' q' hdec hc'
      have hdrop2 : ref.data.drop i = 'M' :: 'D' :: '-' ::
          (c' ++ '_' :: (next_id.data ++ '-' :: q')) := by
        conv_lhs => rw [hdec]
        exact List.drop_left' htake_i
      rw [hu] at hdrop2
      simp only [List.cons.injEq, true_and] at hdrop2
      have hu2 : u = c' ++ '_' :: (next_id.data ++ '-' :: q') := hdrop2
      by_contra hgt
      push_neg at hgt
      rw [htake_j] at hgt
      have hj' : c'.length ≤ (u.takeWhile (fun c => c ≠ '\n')).length := by
        apply takeWhile_prefix_le (by rw [hu2]; simp)
        intro x hx
        rw [hu2, List.take_append_of_le_length (le_refl _), List.take_length] at hx
        simp only [decide_eq_true_eq]
        exact hc' x hx
      have hfalse := hmax c'.length (by omega) hj'
      rw [hu2, List.drop_left c' _] at hfalse
      have htrue : ('_' :: (next_id.data ++ ['-'])).isPrefixOf
          ('_' :: (next_id.data ++ '-' :: q')) = true := by
        apply List.isPrefixOf_iff_prefix.mpr
        exact ⟨q', by simp⟩
      rw [htrue] at hfalse
      exact absurd hfalse (by simp)
    · intro p' c' q' hdec hc'
      by_contra hgt
      push_neg at hgt
      rw [htake_i] at hgt
      have hnone := hleft p'.length (by omega)
      have hdrop2 : ref.data.drop p'.length = 'M' :: 'D' :: '-' ::
          (c' ++ '_' :: (next_id.data ++ '-' :: q')) := by
        conv_lhs => rw [hdec]
        exact List.drop_left' rfl
      rw [hdrop2] at hnone
      have hsome := mdMatchHere_of_decomp (k := next_id.data) (q := q') hc'
      rw [hnone] at hsome
      simp at hsome

/-- Witness for the C6 theorem at concrete inputs: `"CH-SOM03"` has no
`MD-` so the result is empty, and on `"MD-1_M-1_MI-1_CH-4"` the search
yields `"MD-1_M-1_MI-1"`. -/
theorem get_module_instance_part_spec_witness :
    hasInfix ['M', 'D', '-'] ("CH-SOM03" : String).data = false ∧
      get_module_instance_part "CH-SOM03" "CH" = "" ∧
      mdSearchFrom ("CH" : String).data ("MD-1_M-1_MI-1_CH-4" : String).data =
        some ("MD-1_M-1_MI-1" : String).data ∧
      get_module_instance_part "MD-1_M-1_MI-1_CH-4" "CH" =
        String.mk ("MD-1_M-1_MI-1" : String).data :=
  ⟨by decide,
   get_module_instance_part_spec.1 "CH-SOM03" "CH" (by decide),
   by decide,
   (get_module_instance_part_spec.2.1 "MD-1_M-1_MI-1_CH-4" "CH"
      ("MD-1_M-1_MI-1" : String).data (by decide)).1⟩

theorem baseNumberFromAllocator_eq (co : ComObjectInstanceRefBase)
    (arg : ModuleInstanceArgument) (allocators : List Allocator)
    (alloc : Allocator) (size idx : Int) (after : List Char)
    (ha : List.find? (fun al => al.identifier =
        co.application_program_id_prefix ++ arg.value) allocators = some alloc)
    (hs : arg.allocates = some size)
    (hafter : (pySplitSubOnce ('_' :: 'M' :: 'I' :: '-' :: []) co.ref_id.data).2 =
      some after)
    (hidx : pyInt? (pySplitOnce '_' after).1 = some idx) :
    baseNumberFromAllocator co arg allocators =
      .ok (alloc.start + size * (idx - 1)) := by
  rw [baseNumberFromAllocator, ha]
  dsimp only
  rw [hs]
  dsimp only
  rw [hafter]
  dsimp only
  rw [hidx]

theorem parseBaseNumberArgument_int (co : ComObjectInstanceRefBase)
    (app : ApplicationProgramData) (mis : List ModuleInstance) (fuel : Nat)
    (mi : ModuleInstance) (bref : String) (arg : ModuleInstanceArgument) (v : Int)
    (hfind : List.find? (fun a => a.ref_id = bref) mi.arguments = some arg)
    (hint : pyInt? arg.value.data = some v) :
    parseBaseNumberArgument co app mis (fuel + 1) mi bref = .ok v := by
  rw [parseBaseNumberArgument, hfind]
  dsimp only
  rw [hint]

theorem parseBaseNumberArgument_no_base (co : ComObjectInstanceRefBase)
    (app : ApplicationProgramData) (mis : List ModuleInstance) (fuel : Nat)
    (mi : ModuleInstance) (bref : String) (arg : ModuleInstanceArgument)
    (hfind : List.find? (fun a => a.ref_id = bref) mi.arguments = some arg)
    (hint : pyInt? arg.value.data = none)
    (hbm : mi.base_module = none) :
    parseBaseNumberArgument co app mis (fuel + 1) mi bref =
      (baseNumberFromAllocator co arg app.allocators).map (fun a => 0 + a) := by
  rw [parseBaseNumberArgument, hfind]
  dsimp only
  rw [hint]
  dsimp only
  rw [hbm]
  rfl

theorem parseBaseNumberArgument_sub (co : ComObjectInstanceRefBase)
    (app : ApplicationProgramData) (mis : List ModuleInstance) (fuel : Nat)
    (mi : ModuleInstance) (bref : String) (arg : ModuleInstanceArgument)
    (bm : String) (num_arg : ModuleDefinitionNumericArg) (bvr : String)
    (bmi : ModuleInstance) (r : Int)
    (hfind : List.find? (fun a => a.ref_id = bref) mi.arguments = some arg)
    (hint : pyInt? arg.value.data = none)
    (hbm : mi.base_module = some bm)
    (hnum : (List.find? (fun p => p.1 = arg.ref_id) app.numeric_args).map
      (fun p => p.2) = some num_arg)
    (hbv : num_arg.base_value = some bvr)
    (hbmi : List.find? (fun m => m.identifier = bm) mis = some bmi)
    (hrec : parseBaseNumberArgument co app mis fuel bmi bvr = .ok r) :
    parseBaseNumberArgument co app mis (fuel + 1) mi bref =
      (baseNumberFromAllocator co arg app.allocators).map (fun a => r + a) := by
  rw [parseBaseNumberArgument, hfind]
  dsimp only
  rw [hint]
  dsimp only
  rw [hbm]
  dsimp only
  rw [hnum]
  dsimp only
  rw [hbv]
  dsimp only
  rw [hbmi]
  dsimp only
  rw [hrec]
  rfl

theorem applyModuleBaseNumberArgument_eq (co : ComObjectInstanceRefBase)
    (mis : List ModuleInstance) (app : ApplicationProgramData)
    (bref : String) (n : Int) (mi : ModuleInstance)
    (h1 : co.base_number_argument_ref = some bref)
    (h2 : co.number = some n)
    (h3 : ('M' :: 'D' :: '-' :: []).isPrefixOf co.ref_id.data = true)
    (h4 : List.find?
      (fun m => (m.identifier ++ "_").data.isPrefixOf co.ref_id.data) mis =
      some mi) :
    applyModuleBaseNumberArgument co mis app =
      (parseBaseNumberArgument co app mis (mis.length + 1) mi bref).map
        fun offset =>
          { co with number := some (n + offset),
                    module := some ⟨mi.definition_id, n⟩ } := by
  rw [applyModuleBaseNumberArgument, h1, h2]
  dsimp only
  rw [if_pos h3, h4]

/-- C2: for an instance ref whose ref id starts with `MD-` and that
carries a base-number argument ref, with the owning module instance and
the matching argument found: (1) when the argument's value parses as an
integer `v` the final number is the original number plus `v`; (2)
otherwise, for a non-sub-module, the allocator whose identifier is the
application-program prefix plus the value is resolved and the final
number is the original number plus `start + allocates * (index - 1)`,
the index being the integer after the first `_MI-` of the ref id; (3)
for a sub-module the recursively resolved base-module contribution `r`
is added as well.  In every case the original number is recorded as
`module.root_number` alongside the module instance's definition id. -/
theorem apply_module_base_number_argument_spec :
    ∀ (co : ComObjectInstanceRefBase) (module_instances : List ModuleInstance)
      (application : ApplicationProgramData) (bref : String) (n : Int)
      (mi : ModuleInstance) (arg : ModuleInstanceArgument),
      co.base_number_argument_ref = some bref →
      co.number = some n →
      ('M' :: 'D' :: '-' :: []).isPrefixOf co.ref_id.data = true →
      List.find?
        (fun m => (m.identifier ++ "_").data.isPrefixOf co.ref_id.data)
        module_instances = some mi →
      List.find? (fun a => a.ref_id = bref) mi.arguments = some arg →
      ((∀ v : Int, pyInt? arg.value.data = some v →
          applyModuleBaseNumberArgument co module_instances application =
            .ok { co with number := some (n + v),
                          module := some ⟨mi.definition_id, n⟩ }) ∧
       (pyInt? arg.value.data = none → mi.base_module = none →
        ∀ (alloc : Allocator) (size idx : Int) (after : List Char),
          List.find? (fun al => al.identifier =
              co.application_program_id_prefix ++ arg.value)
            application.allocators = some alloc →
          arg.allocates = some size →
          (pySplitSubOnce ('_' :: 'M' :: 'I' :: '-' :: [])
            co.ref_id.data).2 = some after →
          pyInt? (pySplitOnce '_' after).1 = some idx →
          applyModuleBaseNumberArgument co module_instances application =
            .ok { co with
                  number := some (n + (alloc.start + size * (idx - 1))),
                  module := some ⟨mi.definition_id, n⟩ }) ∧
       (pyInt? arg.value.data = none →
        ∀ (bm bvr : String) (num_arg : ModuleDefinitionNumericArg)
          (bmi : ModuleInstance) (r : Int) (alloc : Allocator)
          (size idx : Int) (after : List Char),
          mi.base_module = some bm →
          (List.find? (fun p => p.1 = arg.ref_id)
            application.numeric_args).map (fun p => p.2) = some num_arg →
          num_arg.base_value = some bvr →
          List.find? (fun m => m.identifier = bm) module_instances = some bmi →
          parseBaseNumberArgument co application module_instances
            module_instances.length bmi bvr = .ok r →
          List.find? (fun al => al.identifier =
              co.application_program_id_prefix ++ arg.value)
            application.allocators = some alloc →
          arg.allocates = some size →
          (pySplitSubOnce ('_' :: 'M' :: 'I' :: '-' :: [])
            co.ref_id.data).2 = some after →
          pyInt? (pySplitOnce '_' after).1 = some idx →
          applyModuleBaseNumberArgument co module_instances application =
            .ok { co with
                  number := some (n + (r + (alloc.start + size * (idx - 1)))),
                  module := some ⟨mi.definition_id, n⟩ })) := by
  intro co module_instances application bref n mi arg h1 h2 h3 h4 h5
  refine ⟨?_, ?_, ?_⟩
  · intro v hv
    rw [applyModuleBaseNumberArgument_eq co module_instances application
        bref n mi h1 h2 h3 h4,
      parseBaseNumberArgument_int co application module_instances
        module_instances.length mi bref arg v h5 hv]
    rfl
  · intro hnone hbm alloc size idx after ha hs hafter hidx
    rw [applyModuleBaseNumberArgument_eq co module_instances application
        bref n mi h1 h2 h3 h4,
      parseBaseNumberArgument_no_base co application module_instances
        module_instances.length mi bref arg h5 hnone hbm,
      baseNumberFromAllocator_eq co arg application.allocators
        alloc size idx after ha hs hafter hidx]
    dsimp only [Except.map]
    rw [zero_add]
  · intro hnone bm bvr num_arg bmi r alloc size idx after hbm hnum hbv hbmi
      hrec ha hs hafter hidx
    rw [applyModuleBaseNumberArgument_eq co module_instances application
        bref n mi h1 h2 h3 h4,
      parseBaseNumberArgument_sub co application module_instances
        module_instances.length mi bref arg bm num_arg bvr bmi r
        h5 hnone hbm hnum hbv hbmi hrec,
      baseNumberFromAllocator_eq co arg application.allocators
        alloc size idx after ha hs hafter hidx]
    rfl

/-- Witness for the C2 theorem on a concrete non-sub-module instance
ref using the allocator path: ref id `MD-2_MI-3_O-5`, allocator start
100, allocates 8, instance index 3, original number 10, so the final
number is 10 + (100 + 8 * 2) = 126. -/
theorem apply_module_base_number_argument_spec_witness :
    applyModuleBaseNumberArgument
      { ref_id := "MD-2_MI-3_O-5",
        application_program_id_prefix := "M-1_A-1_",
        base_number_argument_ref := some "M-1_A-1_MD-2_A-7",
        number := some 10,
        module := none }
      [{ identifier := "MD-2_MI-3",
         ref_id := "MD-2_M-7",
         arguments := [{ ref_id := "M-1_A-1_MD-2_A-7",
                         value := "L-1",
                         name := "ObjNumberBase",
                         allocates := some 8 }] }]
      { allocators := [{ identifier := "M-1_A-1_L-1",
                         name := "",
                         start := 100,
                         stop := 200 }],
        numeric_args := [] } =
      .ok { ref_id := "MD-2_MI-3_O-5",
            application_program_id_prefix := "M-1_A-1_",
            base_number_argument_ref := some "M-1_A-1_MD-2_A-7",
            number := some ((10 : Int) + (100 + 8 * (3 - 1))),
            module := some ⟨"MD-2", 10⟩ } :=
  (apply_module_base_number_argument_spec
      { ref_id := "MD-2_MI-3_O-5",
        application_program_id_prefix := "M-1_A-1_",
        base_number_argument_ref := some "M-1_A-1_MD-2_A-7",
        number := some 10,
        module := none }
      [{ identifier := "MD-2_MI-3",
         ref_id := "MD-2_M-7",
         arguments := [{ ref_id := "M-1_A-1_MD-2_A-7",
                         value := "L-1",
                         name := "ObjNumberBase",
                         allocates := some 8 }] }]
      { allocators := [{ identifier := "M-1_A-1_L-1",
                         name := "",
                         start := 100,
                         stop := 200 }],
        numeric_args := [] }
      "M-1_A-1_MD-2_A-7" 10
      { identifier := "MD-2_MI-3",
        ref_id := "MD-2_M-7",
        arguments := [{ ref_id := "M-1_A-1_MD-2_A-7",
                        value := "L-1",
                        name := "ObjNumberBase",
                        allocates := some 8 }] }
      { ref_id := "M-1_A-1_MD-2_A-7",
        value := "L-1",
        name := "ObjNumberBase",
        allocates := some 8 }
      rfl rfl (by decide) (by decide) (by decide)).2.1
    (by decide) (by decide)
    { identifier := "M-1_A-1_L-1", name := "", start := 100, stop := 200 }
    8 3 ("3_O-5".data) (by decide) rfl (by decide) (by decide)

theorem stripMatchAt_eq (k s : List Char) :
    stripMatchAt k s =
      (optGroupCands 'M' 'D' s ++ [([], s)]).findSome? (stripF k) := rfl

theorem wordChar_ne_newline {c : Char} (h : wordChar c = true) : c ≠ '\n' := by
  intro hc
  subst hc
  revert h
  decide

theorem wordChar_underscore : wordChar '_' = true := by decide

theorem findSome?_filterMap_eq {α β γ : Type} (f : α → Option β) (g : β → Option γ)
    (l : List α) :
    (l.filterMap f).findSome? g = l.findSome? (fun a => (f a).bind g) := by
  induction l with
  | nil => rfl
  | cons a t ih =>
    rw [List.filterMap_cons, List.findSome?_cons]
    cases hfa : f a with
    | none => simpa using ih
    | some b =>
      rw [List.findSome?_cons]
      cases hgb : g b <;> simp [hgb, ih]

theorem findSome?_append_some {α β : Type} {f : α → Option β} {l₁ : List α}
    (l₂ : List α) {v : β} (h : l₁.findSome? f = some v) :
    (l₁ ++ l₂).findSome? f = some v := by
  rw [List.findSome?_append, h]
  rfl

theorem findSome?_append_none {α β : Type} {f : α → Option β} {l₁ : List α}
    (l₂ : List α) (h : l₁.findSome? f = none) :
    (l₁ ++ l₂).findSome? f = l₂.findSome? f := by
  rw [List.findSome?_append, h]
  rfl

theorem findSome?_range_head {β : Type} {f : Nat → Option β} {v : β} (n : Nat)
    (h : f 0 = some v) : (List.range (n + 1)).findSome? f = some v := by
  rw [List.range_succ_eq_map, List.findSome?_cons, h]

theorem mem_desc_range {j run : Nat} :
    j ∈ (List.range run).reverse.map (· + 1) ↔ 1 ≤ j ∧ j ≤ run := by
  simp only [List.mem_map, List.mem_reverse, List.mem_range]
  constructor
  · rintro ⟨a, ha, rfl⟩
    omega
  · rintro ⟨h1, h2⟩
    exact ⟨j - 1, by omega, by omega⟩

theorem prefix_take_of_le {kd X Y : List Char} (h : kd.isPrefixOf (X ++ Y) = true)
    (hle : kd.length ≤ X.length) : kd.isPrefixOf X = true := by
  rw [List.isPrefixOf_iff_prefix, List.prefix_iff_eq_take] at h ⊢
  rw [List.take_append_of_le_length hle] at h
  exact h

theorem prefix_len_le_of_newline {kd X t : List Char}
    (h : kd.isPrefixOf (X ++ '\n' :: t) = true)
    (hkd : ∀ c ∈ kd, c ≠ '\n') : kd.length ≤ X.length := by
  by_contra hgt
  push_neg at hgt
  rw [List.isPrefixOf_iff_prefix, List.prefix_iff_eq_take] at h
  have h1 : (X ++ '\n' :: t).take (X.length + 1) = X ++ ['\n'] := by
    rw [List.take_append 1]
    rfl
  have h2 : ((X ++ '\n' :: t).take kd.length).take (X.length + 1) =
      (X ++ '\n' :: t).take (X.length + 1) := by
    rw [List.take_take, min_eq_left (by omega)]
  have hmem : '\n' ∈ kd := by
    rw [h]
    apply List.mem_of_mem_take (n := X.length + 1)
    rw [h2, h1]
    simp
  exact hkd '\n' hmem rfl

theorem takeWhile_all_append {p : Char → Bool} {X : List Char} (Y : List Char)
    (h : ∀ c ∈ X, p c = true) :
    (X ++ Y).takeWhile p = X ++ Y.takeWhile p :=
  List.takeWhile_append_of_pos h

theorem dropWhile_shape (p : Char → Bool) (l : List Char) :
    l.dropWhile p = [] ∨ ∃ c t, l.dropWhile p = c :: t ∧ p c = false := by
  rcases hd : l.dropWhile p with _ | ⟨c, t⟩
  · exact Or.inl rfl
  · refine Or.inr ⟨c, t, rfl, ?_⟩
    have := List.head?_dropWhile_not p l
    rw [hd] at this
    simpa using this

theorem mem_optGroupCands {c1 c2 : Char} {s : List Char}
    {ar : List Char × List Char} (h : ar ∈ optGroupCands c1 c2 s) :
    s = ar.1 ++ ar.2 ∧ ∃ w, w ≠ [] ∧ (∀ c ∈ w, wordChar c = true) ∧
      ar.1 = c1 :: c2 :: '-' :: (w ++ ['_']) := by
  rw [optGroupCands.eq_def] at h
  split at h
  · next d1 d2 u =>
    split at h
    · next h12 =>
      obtain ⟨rfl, rfl⟩ := h12
      dsimp only at h
      rw [List.mem_filterMap] at h
      obtain ⟨j, hjmem, hj⟩ := h
      rw [mem_desc_range] at hjmem
      split at hj
      · next hget =>
        rw [Option.some.injEq] at hj
        subst hj
        have hlt : j < u.length := (List.get?_eq_some.mp hget).1
        have hdrop : u.drop j = '_' :: u.drop (j + 1) := by
          rw [List.drop_eq_getElem_cons hlt]
          obtain ⟨hl, he⟩ := List.get?_eq_some.mp hget
          congr 1
        refine ⟨?_, u.take j, ?_, take_of_takeWhile_mem hjmem.2, rfl⟩
        · show d1 :: d2 :: '-' :: u =
            (d1 :: d2 :: '-' :: (u.take j ++ ['_'])) ++ u.drop (j + 1)
          simp only [List.cons_append, List.cons.injEq, true_and,
            List.append_assoc]
          conv_lhs => rw [← List.take_append_drop j u, hdrop]
          rfl
        · have hlen : (u.take j).length = j := by
            rw [List.length_take]
            omega
          intro hnil
          rw [hnil] at hlen
          simp at hlen
          omega
      · simp at hj
    · simp at h
  · simp at h

theorem optGroupCands_eq_nil {c1 c2 : Char} {s : List Char}
    (h : s.take 3 ≠ [c1, c2, '-']) : optGroupCands c1 c2 s = [] := by
  rw [optGroupCands.eq_def]
  split
  · next d1 d2 u =>
    rw [if_neg]
    rintro ⟨rfl, rfl⟩
    exact h rfl
  · rfl

theorem optGroupCands_mem_intro (c1 c2 : Char) {w : List Char} (r : List Char)
    (hw : w ≠ []) (hword : ∀ c ∈ w, wordChar c = true) :
    (c1 :: c2 :: '-' :: (w ++ ['_']), r) ∈
      optGroupCands c1 c2 (c1 :: c2 :: '-' :: (w ++ '_' :: r)) := by
  have hrun : w.length + 1 ≤ ((w ++ '_' :: r).takeWhile wordChar).length := by
    apply takeWhile_prefix_le (by simp)
    intro c hc
    rw [show w ++ '_' :: r = (w ++ ['_']) ++ r by simp,
      List.take_append_of_le_length (by simp)] at hc
    have hful : (w ++ ['_']).take (w.length + 1) = w ++ ['_'] := by
      apply List.take_of_length_le
      simp
    rw [hful] at hc
    rcases List.mem_append.mp hc with hcw | hcu
    · exact hword c hcw
    · simp at hcu
      subst hcu
      exact wordChar_underscore
  rw [optGroupCands.eq_def]
  split
  · next d1 d2 u heq =>
    injection heq with h1 heq
    injection heq with h2 heq
    injection heq with h3 heq
    subst h1
    subst h2
    subst heq
    rw [if_pos ⟨rfl, rfl⟩]
    dsimp only
    rw [List.mem_filterMap]
    refine ⟨w.length, ?_, ?_⟩
    · rw [mem_desc_range]
      constructor
      · have := List.length_pos.mpr hw
        omega
      · omega
    · have hget : (w ++ '_' :: r).get? w.length = some '_' := by
        rw [List.get?_append_right (le_refl _)]
        simp
      rw [if_pos hget, Option.some.injEq]
      have ht : (w ++ '_' :: r).take w.length = w := List.take_left w _
      have hd : (w ++ '_' :: r).drop (w.length + 1) = r := by
        rw [show w ++ '_' :: r = (w ++ ['_']) ++ r by simp]
        apply List.drop_left'
        simp
      rw [ht, hd]
  · next hne =>
    exact (hne c1 c2 (w ++ '_' :: r) rfl).elim

theorem get?_no_underscore_run_aux {tw dw : List Char} (hnous : '_' ∉ tw)
    (hdw : dw = [] ∨ ∃ c t, dw = c :: t ∧ wordChar c = false) :
    ∀ i, i ≤ tw.length → (tw ++ dw).get? i ≠ some '_' := by
  intro i hi hget
  rcases lt_or_eq_of_le hi with hlt | heq
  · rw [List.get?_append hlt] at hget
    exact hnous (List.get?_mem hget)
  · subst heq
    rw [List.get?_append_right (le_refl _)] at hget
    simp only [Nat.sub_self] at hget
    rcases hdw with rfl | ⟨c, t, rfl, hc⟩
    · simp at hget
    · simp only [List.get?_cons_zero, Option.some.injEq] at hget
      subst hget
      rw [wordChar_underscore] at hc
      simp at hc

theorem get?_no_underscore_in_run {r : List Char}
    (hnous : '_' ∉ r.takeWhile wordChar) :
    ∀ i, i ≤ (r.takeWhile wordChar).length → r.get? i ≠ some '_' := by
  intro i hi
  have haux := @get?_no_underscore_run_aux (r.takeWhile wordChar) (r.dropWhile wordChar) hnous ?_ i hi
  · rwa [List.takeWhile_append_dropWhile] at haux
  · rcases dropWhile_shape wordChar r with hd | ⟨c, t, hd, hc⟩
    · exact Or.inl hd
    · exact Or.inr ⟨c, t, hd, hc⟩

theorem optGroupCands_findSome?_max {β : Type} {c1 c2 : Char} {w r : List Char}
    {F : List Char × List Char → Option β} {v : β}
    (hw : w ≠ []) (hword : ∀ c ∈ w, wordChar c = true)
    (hnous : '_' ∉ r.takeWhile wordChar)
    (hF : F (c1 :: c2 :: '-' :: (w ++ ['_']), r) = some v) :
    (optGroupCands c1 c2 (c1 :: c2 :: '-' :: (w ++ '_' :: r))).findSome? F =
      some v := by
  have htw : ((w ++ '_' :: r).takeWhile wordChar) =
      (w ++ ['_']) ++ r.takeWhile wordChar := by
    rw [show w ++ '_' :: r = (w ++ ['_']) ++ r by simp]
    apply takeWhile_all_append
    intro c hc
    rcases List.mem_append.mp hc with hcw | hcu
    · exact hword c hcw
    · simp at hcu
      subst hcu
      exact wordChar_underscore
  obtain ⟨m, hm⟩ : ∃ m, w.length = m + 1 :=
    ⟨w.length - 1, by have := List.length_pos.mpr hw; omega⟩
  have hrun : ((w ++ '_' :: r).takeWhile wordChar).length =
      (m + 1 + (r.takeWhile wordChar).length) + 1 := by
    rw [htw]
    simp only [List.length_append, List.length_cons, List.length_nil, hm]
    omega
  have hget : (w ++ '_' :: r).get? w.length = some '_' := by
    rw [List.get?_append_right (le_refl _)]
    simp
  have ht : (w ++ '_' :: r).take w.length = w := List.take_left w _
  have hd : (w ++ '_' :: r).drop (w.length + 1) = r := by
    rw [show w ++ '_' :: r = (w ++ ['_']) ++ r by simp]
    apply List.drop_left'
    simp
  rw [optGroupCands.eq_def]
  split
  · next d1 d2 u heq =>
    injection heq with h1 heq
    injection heq with h2 heq
    injection heq with h3 heq
    subst h1
    subst h2
    subst heq
    rw [if_pos ⟨rfl, rfl⟩]
    dsimp only
    rw [findSome?_filterMap_eq, List.findSome?_map, hrun]
    have hres := findSome?_desc_of_max
      ((fun j => (if (w ++ '_' :: r).get? j = some '_' then
          some (c1 :: c2 :: '-' :: ((w ++ '_' :: r).take j ++ ['_']),
            (w ++ '_' :: r).drop (j + 1)) else none).bind F) ∘ (fun x => x + 1))
      (m + 1 + (r.takeWhile wordChar).length) m (by omega) ?_ ?_
    · rw [hres]
      dsimp only [Function.comp_apply]
      rw [← hm, if_pos hget, ht, hd]
      exact hF
    · dsimp only [Function.comp_apply]
      rw [← hm, if_pos hget, ht, hd]
      simp [hF]
    · intro j' hj1 hj2
      dsimp only [Function.comp_apply]
      rw [if_neg, Option.none_bind]
      have hgr : (w ++ '_' :: r).get? (j' + 1) =
          r.get? (j' + 1 - (w.length + 1)) := by
        rw [show w ++ '_' :: r = (w ++ ['_']) ++ r by simp,
          List.get?_append_right (by simp; omega)]
        congr 1
        simp
      rw [hgr]
      apply get?_no_underscore_in_run hnous
      omega
  · next hne =>
    exact (hne c1 c2 (w ++ '_' :: r) rfl).elim

theorem kd_no_newline {k : List Char} (hk : ∀ c ∈ k, wordChar c = true) :
    ∀ c ∈ k ++ ['-'], c ≠ '\n' := by
  intro c hc
  rcases List.mem_append.mp hc with hck | hcd
  · exact wordChar_ne_newline (hk c hck)
  · simp at hcd
    subst hcd
    decide

theorem optForm_no_newline {c1 c2 : Char} {b : List Char}
    (h1 : c1 ≠ '\n') (h2 : c2 ≠ '\n') (hb : optForm c1 c2 b) :
    ∀ c ∈ b, c ≠ '\n' := by
  rcases hb with rfl | ⟨w, hw, hword, rfl⟩
  · simp
  · intro c hc
    simp only [List.mem_cons, List.mem_append, List.mem_singleton] at hc
    rcases hc with rfl | rfl | rfl | hcw | rfl | h0
    · exact h1
    · exact h2
    · decide
    · exact wordChar_ne_newline (hword c hcw)
    · decide
    · simp at h0

theorem strip_inner_eq (a1 : List Char) (l : Nat) {k b1 tail rest2 : List Char}
    (hk : ∀ c ∈ k, wordChar c = true)
    (hb1 : optForm 'S' 'M' b1)
    (htail : ∀ c ∈ tail, c ≠ '\n')
    (hrest : rest2 = [] ∨ ∃ t2, rest2 = '\n' :: t2) :
    ((optGroupCands 'S' 'M' (b1 ++ (k ++ '-' :: (tail ++ rest2))) ++
        [([], b1 ++ (k ++ '-' :: (tail ++ rest2)))]).findSome? (stripG k a1 l)) =
      some (a1 ++ b1 ++ (k ++ '-' :: tail),
        a1.length + l + b1.length + k.length + tail.length) := by
  have hassoc : b1 ++ (k ++ '-' :: (tail ++ rest2)) =
      (b1 ++ (k ++ '-' :: tail)) ++ rest2 := by
    simp
  have hPnl : ∀ c ∈ b1 ++ (k ++ '-' :: tail), c ≠ '\n' := by
    intro c hc
    rcases List.mem_append.mp hc with hcb | hck
    · exact optForm_no_newline (by decide) (by decide) hb1 c hcb
    · rcases List.mem_append.mp hck with hinb | hind
      · exact wordChar_ne_newline (hk c hinb)
      · rcases List.mem_cons.mp hind with rfl | hintail
        · decide
        · exact htail c hintail
  rcases hout : ((optGroupCands 'S' 'M' (b1 ++ (k ++ '-' :: (tail ++ rest2))) ++
      [([], b1 ++ (k ++ '-' :: (tail ++ rest2)))]).findSome? (stripG k a1 l))
    with _ | v
  · exfalso
    rw [List.findSome?_eq_none_iff] at hout
    rcases hb1 with hb1nil | ⟨w', hw', hword', hb1f⟩
    · subst hb1nil
      have hfb := hout ([], [] ++ (k ++ '-' :: (tail ++ rest2))) (by simp)
      rw [stripG, if_pos ?_] at hfb
      · simp at hfb
      · rw [List.isPrefixOf_iff_prefix]
        exact ⟨tail ++ rest2, by simp⟩
    · subst hb1f
      have hel := hout ('S' :: 'M' :: '-' :: (w' ++ ['_']),
        k ++ '-' :: (tail ++ rest2)) ?_
      · rw [stripG, if_pos ?_] at hel
        · simp at hel
        · rw [List.isPrefixOf_iff_prefix]
          exact ⟨tail ++ rest2, by simp⟩
      · apply List.mem_append_left
        have hmem := optGroupCands_mem_intro 'S' 'M'
          (k ++ '-' :: (tail ++ rest2)) hw' hword'
        convert hmem using 2
        simp
  · obtain ⟨br, hbr, hG⟩ := List.exists_of_findSome?_eq_some hout
    have hbrdec : (b1 ++ (k ++ '-' :: tail)) ++ rest2 = br.1 ++ br.2 ∧
        (∀ c ∈ br.1, c ≠ '\n') := by
      rcases List.mem_append.mp hbr with hmem | hfb
      · obtain ⟨hs, w2, hw2, hword2, hb⟩ := mem_optGroupCands hmem
        rw [hassoc] at hs
        refine ⟨hs, ?_⟩
        rw [hb]
        exact optForm_no_newline (by decide) (by decide)
          (Or.inr ⟨w2, hw2, hword2, rfl⟩)
      · simp only [List.mem_singleton] at hfb
        subst hfb
        exact ⟨by simp, by simp⟩
    obtain ⟨hsplit, hbrnl⟩ := hbrdec
    rw [stripG] at hG
    by_cases hpre : (k ++ ['-']).isPrefixOf br.2 = true
    · rw [if_pos hpre] at hG
      have hb1pre : br.1.isPrefixOf ((b1 ++ (k ++ '-' :: tail)) ++ rest2) = true := by
        rw [List.isPrefixOf_iff_prefix]
        exact ⟨br.2, hsplit.symm⟩
      have hlen1 : br.1.length ≤ (b1 ++ (k ++ '-' :: tail)).length := by
        rcases hrest with hr0 | ⟨t2, hr2⟩
        · subst hr0
          rw [List.append_nil] at hsplit
          have : (b1 ++ (k ++ '-' :: tail)).length = br.1.length + br.2.length := by
            rw [hsplit, List.length_append]
          omega
        · subst hr2
          exact prefix_len_le_of_newline hb1pre hbrnl
      have hbr2 : br.2 = (b1 ++ (k ++ '-' :: tail)).drop br.1.length ++ rest2 := by
        have h1 : br.2 = (br.1 ++ br.2).drop br.1.length := by
          rw [List.drop_left]
        rw [h1, ← hsplit, List.drop_append_of_le_length hlen1]
      have hXnl : ∀ c ∈ (b1 ++ (k ++ '-' :: tail)).drop br.1.length, c ≠ '\n' :=
        fun c hc => hPnl c (List.mem_of_mem_drop hc)
      have hlen2 : (k ++ ['-']).length ≤
          ((b1 ++ (k ++ '-' :: tail)).drop br.1.length).length := by
        rcases hrest with hr0 | ⟨t2, hr2⟩
        · subst hr0
          rw [List.append_nil] at hbr2
          rw [← hbr2]
          exact List.IsPrefix.length_le (List.isPrefixOf_iff_prefix.mp hpre)
        · subst hr2
          rw [hbr2] at hpre
          exact prefix_len_le_of_newline hpre (kd_no_newline hk)
      have hkdtake : k ++ ['-'] =
          ((b1 ++ (k ++ '-' :: tail)).drop br.1.length).take (k ++ ['-']).length := by
        rw [hbr2] at hpre
        exact List.prefix_iff_eq_take.mp
          (List.isPrefixOf_iff_prefix.mp (prefix_take_of_le hpre hlen2))
      have hdrop2 : br.2.drop (k ++ ['-']).length =
          ((b1 ++ (k ++ '-' :: tail)).drop br.1.length).drop (k ++ ['-']).length ++
            rest2 := by
        rw [hbr2, List.drop_append_of_le_length hlen2]
      have htail2 : (br.2.drop (k ++ ['-']).length).takeWhile (fun c => c ≠ '\n') =
          ((b1 ++ (k ++ '-' :: tail)).drop br.1.length).drop (k ++ ['-']).length := by
        rw [hdrop2]
        rw [takeWhile_all_append]
        · rcases hrest with hr0 | ⟨t2, hr2⟩
          · subst hr0
            simp
          · subst hr2
            rw [List.takeWhile_cons_of_neg (by simp)]
            simp
        · intro c hc
          simp only [decide_eq_true_eq]
          exact hXnl c (List.mem_of_mem_drop hc)
      have hb1take : br.1 = (b1 ++ (k ++ '-' :: tail)).take br.1.length :=
        List.prefix_iff_eq_take.mp (List.isPrefixOf_iff_prefix.mp
          (prefix_take_of_le hb1pre hlen1))
      have hreassemble : br.1 ++ ((k ++ ['-']) ++
          (((b1 ++ (k ++ '-' :: tail)).drop br.1.length).drop (k ++ ['-']).length)) =
          b1 ++ (k ++ '-' :: tail) := by
        nth_rewrite 1 [hkdtake]
        rw [List.take_append_drop]
        nth_rewrite 1 [hb1take]
        rw [List.take_append_drop]
      rw [Option.some.injEq] at hG
      subst hG
      rw [hout]
      rw [Option.some.injEq, Prod.mk.injEq]
      rw [htail2]
      have hlentail : (((b1 ++ (k ++ '-' :: tail)).drop br.1.length).drop
            (k ++ ['-']).length).length =
          (b1 ++ (k ++ '-' :: tail)).length - br.1.length - (k ++ ['-']).length := by
        simp only [List.length_drop, List.length_append, List.length_cons]
        try omega
      constructor
      · calc a1 ++ br.1 ++ (k ++ '-' ::
              (((b1 ++ (k ++ '-' :: tail)).drop br.1.length).drop
                (k ++ ['-']).length))
            = a1 ++ (br.1 ++ ((k ++ ['-']) ++
              (((b1 ++ (k ++ '-' :: tail)).drop br.1.length).drop
                (k ++ ['-']).length))) := by simp
          _ = a1 ++ (b1 ++ (k ++ '-' :: tail)) := by rw [hreassemble]
          _ = a1 ++ b1 ++ (k ++ '-' :: tail) := (List.append_assoc a1 b1 _).symm
      · rw [hlentail]
        have hP : (b1 ++ (k ++ '-' :: tail)).length =
            b1.length + (k.length + (1 + tail.length)) := by
          simp only [List.length_append, List.length_cons]
          omega
        have hkd : (k ++ ['-']).length = k.length + 1 := by simp
        rw [hP, hkd]
        rw [hP] at hlen1
        simp only [List.length_drop] at hlen2
        rw [hP, hkd] at hlen2
        omega
    · rw [if_neg hpre] at hG
      simp at hG

theorem stripF_eq (a1 : List Char) {k b1 tail rest2 : List Char}
    (hk : ∀ c ∈ k, wordChar c = true)
    (hb1 : optForm 'S' 'M' b1)
    (htail : ∀ c ∈ tail, c ≠ '\n')
    (hrest : rest2 = [] ∨ ∃ t2, rest2 = '\n' :: t2) :
    stripF k (a1, b1 ++ (k ++ '-' :: (tail ++ rest2))) =
      some (a1 ++ b1 ++ (k ++ '-' :: tail),
        a1.length + b1.length + k.length + tail.length) := by
  rw [stripF]
  apply findSome?_range_head
  dsimp only
  rw [List.drop_zero]
  rw [strip_inner_eq a1 0 hk hb1 htail hrest]
  norm_num

theorem stripMatchAt_gap_zero {k a1 b1 tail rest2 : List Char}
    (hk : ∀ c ∈ k, wordChar c = true) (hkus : '_' ∉ k) (hkne : k ≠ ['M', 'D'])
    (ha1 : optForm 'M' 'D' a1) (hb1 : optForm 'S' 'M' b1)
    (htail : ∀ c ∈ tail, c ≠ '\n')
    (hrest : rest2 = [] ∨ ∃ t2, rest2 = '\n' :: t2) :
    stripMatchAt k (a1 ++ (b1 ++ (k ++ '-' :: (tail ++ rest2)))) =
      some (a1 ++ b1 ++ (k ++ '-' :: tail),
        a1.length + b1.length + k.length + tail.length) := by
  rw [stripMatchAt_eq]
  rcases ha1 with ha1nil | ⟨w, hw, hword, ha1f⟩
  · subst ha1nil
    rw [List.nil_append]
    rw [optGroupCands_eq_nil ?_, List.nil_append, List.findSome?_cons,
      stripF_eq [] hk hb1 htail hrest]
    · rcases hb1 with hb1nil | ⟨w', hw', hword', hb1f⟩
      · subst hb1nil
        rw [List.nil_append]
        rcases k with _ | ⟨c1, k1⟩
        · intro h
          rw [List.nil_append] at h
          simp at h
        rcases k1 with _ | ⟨c2, k2⟩
        · intro h
          simp at h
        rcases k2 with _ | ⟨c3, k3⟩
        · intro h
          simp at h
          obtain ⟨rfl, rfl⟩ := h
          exact hkne rfl
        · intro h
          simp at h
          obtain ⟨h1, h2, h3⟩ := h
          subst h3
          have hm := hk '-' (by simp)
          exact absurd hm (by decide)
      · subst hb1f
        intro h
        simp at h
  · subst ha1f
    have hs : ('M' :: 'D' :: '-' :: (w ++ ['_'])) ++
        (b1 ++ (k ++ '-' :: (tail ++ rest2))) =
        'M' :: 'D' :: '-' :: (w ++ '_' :: (b1 ++ (k ++ '-' :: (tail ++ rest2)))) := by
      simp
    rw [hs]
    apply findSome?_append_some
    apply optGroupCands_findSome?_max hw hword ?_ ?_
    · rcases hb1 with hb1nil | ⟨w', hw', hword', hb1f⟩
      · subst hb1nil
        rw [List.nil_append, takeWhile_all_append ('-' :: (tail ++ rest2)) hk,
          List.takeWhile_cons_of_neg (by decide), List.append_nil]
        exact hkus
      · subst hb1f
        rw [show ('S' :: 'M' :: '-' :: (w' ++ ['_'])) ++
            (k ++ '-' :: (tail ++ rest2)) =
            'S' :: 'M' :: '-' :: ((w' ++ ['_']) ++ (k ++ '-' :: (tail ++ rest2)))
          by simp]
        rw [List.takeWhile_cons_of_pos (by decide),
          List.takeWhile_cons_of_pos (by decide),
          List.takeWhile_cons_of_neg (by decide)]
        simp
    · exact stripF_eq _ hk hb1 htail hrest

theorem mem_strip_outer_decomp {s : List Char} {ar : List Char × List Char}
    (har : ar ∈ optGroupCands 'M' 'D' s ++ [([], s)]) :
    s = ar.1 ++ ar.2 ∧ optForm 'M' 'D' ar.1 := by
  rcases List.mem_append.mp har with hmem | hfb
  · obtain ⟨hs, w, hw, hword, ha⟩ := mem_optGroupCands hmem
    exact ⟨hs, Or.inr ⟨w, hw, hword, ha⟩⟩
  · simp only [List.mem_singleton] at hfb
    subst hfb
    exact ⟨by simp, Or.inl rfl⟩

theorem mem_strip_inner_decomp {rp : List Char} {br : List Char × List Char}
    (hbr : br ∈ optGroupCands 'S' 'M' rp ++ [([], rp)]) :
    rp = br.1 ++ br.2 ∧ optForm 'S' 'M' br.1 := by
  rcases List.mem_append.mp hbr with hmem | hfb
  · obtain ⟨hs, w, hw, hword, ha⟩ := mem_optGroupCands hmem
    exact ⟨hs, Or.inr ⟨w, hw, hword, ha⟩⟩
  · simp only [List.mem_singleton] at hfb
    subst hfb
    exact ⟨by simp, Or.inl rfl⟩

theorem stripMatchAt_eq_none_of_noReach {k s : List Char}
    (h : noReach k s) :
    stripMatchAt k s = none := by
  rw [stripMatchAt_eq, List.findSome?_eq_none_iff]
  intro ar har
  obtain ⟨hs, haf⟩ := mem_strip_outer_decomp har
  have hanl : ∀ c ∈ ar.1, c ≠ '\n' :=
    optForm_no_newline (by decide) (by decide) haf
  rw [stripF, List.findSome?_eq_none_iff]
  intro l hl
  rw [List.mem_range] at hl
  rw [List.findSome?_eq_none_iff]
  intro br hbr
  obtain ⟨hs2, hbf⟩ := mem_strip_inner_decomp hbr
  have hbnl : ∀ c ∈ br.1, c ≠ '\n' :=
    optForm_no_newline (by decide) (by decide) hbf
  have hlnl : l ≤ (ar.2.takeWhile (fun c => c ≠ '\n')).length := by omega
  have hlle : l ≤ ar.2.length :=
    le_trans hlnl (List.IsPrefix.length_le (List.takeWhile_prefix _))
  have hdropq : s.drop (ar.1.length + (l + br.1.length)) = br.2 := by
    rw [hs, List.drop_append, ← List.drop_drop, hs2, List.drop_left]
  have htakeq : ∀ c ∈ s.take (ar.1.length + (l + br.1.length)), c ≠ '\n' := by
    intro c hc
    rw [hs, List.take_append, List.take_add] at hc
    rcases List.mem_append.mp hc with hc1 | hc2
    · exact hanl c hc1
    · rcases List.mem_append.mp hc2 with hc3 | hc4
      · have := take_of_takeWhile_mem hlnl c hc3
        simpa using this
      · rw [hs2, List.take_left] at hc4
        exact hbnl c hc4
  have hfalse := h (ar.1.length + (l + br.1.length)) htakeq
  rw [hdropq] at hfalse
  rw [stripG, if_neg]
  simp [hfalse]

theorem noReach_of_stripMatchAt_eq_none {k s : List Char}
    (h : stripMatchAt k s = none) : noReach k s := by
  intro q hq
  by_contra hpre
  rw [Bool.not_eq_false] at hpre
  have hkdnil : k ++ ['-'] ≠ [] := by simp
  have hqlen : q ≤ s.length := by
    by_contra hgt
    push_neg at hgt
    rw [List.drop_eq_nil_of_le (le_of_lt hgt)] at hpre
    rw [List.isPrefixOf_iff_prefix] at hpre
    exact hkdnil (List.prefix_nil.mp hpre)
  have hnl : q ≤ (s.takeWhile (fun c => c ≠ '\n')).length := by
    apply takeWhile_prefix_le hqlen
    intro c hc
    simp only [decide_eq_true_eq]
    exact hq c hc
  rw [stripMatchAt_eq, List.findSome?_eq_none_iff] at h
  have hfb := h ([], s) (by simp)
  rw [stripF, List.findSome?_eq_none_iff] at hfb
  have hq2 := hfb q ?_
  · rw [List.findSome?_eq_none_iff] at hq2
    have hinner := hq2 ([], (([] : List Char), s).2.drop q) (by simp)
    rw [stripG, if_pos] at hinner
    · simp at hinner
    · dsimp only
      exact hpre
  · rw [List.mem_range]
    dsimp only
    omega

theorem stripMatchAt_some_inv {k s repl : List Char} {extra : Nat}
    (h : stripMatchAt k s = some (repl, extra)) :
    ∃ a1 gap b1 tail rest2,
      s = a1 ++ (gap ++ (b1 ++ ((k ++ ['-']) ++ (tail ++ rest2)))) ∧
      repl = a1 ++ b1 ++ (k ++ '-' :: tail) ∧
      extra = a1.length + gap.length + b1.length + k.length + tail.length ∧
      optForm 'M' 'D' a1 ∧ optForm 'S' 'M' b1 ∧
      (∀ c ∈ gap, c ≠ '\n') ∧ (∀ c ∈ tail, c ≠ '\n') ∧
      (rest2 = [] ∨ ∃ t2, rest2 = '\n' :: t2) := by
  rw [stripMatchAt_eq] at h
  obtain ⟨ar, har, hF⟩ := List.exists_of_findSome?_eq_some h
  obtain ⟨hs, haf⟩ := mem_strip_outer_decomp har
  rw [stripF] at hF
  obtain ⟨l, hlmem, hinner⟩ := List.exists_of_findSome?_eq_some hF
  rw [List.mem_range] at hlmem
  obtain ⟨br, hbr, hG⟩ := List.exists_of_findSome?_eq_some hinner
  obtain ⟨hs2, hbf⟩ := mem_strip_inner_decomp hbr
  rw [stripG] at hG
  by_cases hpre : (k ++ ['-']).isPrefixOf br.2 = true
  · rw [if_pos hpre, Option.some.injEq, Prod.mk.injEq] at hG
    obtain ⟨hrepl, hextra⟩ := hG
    have hlnl : l ≤ (ar.2.takeWhile (fun c => c ≠ '\n')).length := by omega
    have hlle : l ≤ ar.2.length :=
      le_trans hlnl (List.IsPrefix.length_le (List.takeWhile_prefix _))
    have hbr2 : br.2 = (k ++ ['-']) ++ br.2.drop (k ++ ['-']).length := by
      have hkt := List.prefix_iff_eq_take.mp (List.isPrefixOf_iff_prefix.mp hpre)
      conv_lhs => rw [← List.take_append_drop (k ++ ['-']).length br.2]
      rw [← hkt]
    refine ⟨ar.1, ar.2.take l, br.1,
      (br.2.drop (k ++ ['-']).length).takeWhile (fun c => c ≠ '\n'),
      (br.2.drop (k ++ ['-']).length).dropWhile (fun c => c ≠ '\n'),
      ?_, hrepl.symm, ?_, haf, hbf, ?_, ?_, ?_⟩
    · rw [hs]
      congr 1
      conv_lhs => rw [← List.take_append_drop l ar.2]
      congr 1
      rw [hs2]
      congr 1
      conv_lhs => rw [hbr2]
      congr 1
      rw [List.takeWhile_append_dropWhile]
    · rw [← hextra]
      have htl : (ar.2.take l).length = l := by
        rw [List.length_take]
        omega
      rw [htl]
    · intro c hc
      have := take_of_takeWhile_mem hlnl c hc
      simpa using this
    · intro c hc
      have := List.mem_takeWhile_imp hc
      simpa using this
    · rcases dropWhile_shape (fun c => c ≠ '\n')
          (br.2.drop (k ++ ['-']).length) with hd | ⟨c, t, hd, hc⟩
      · exact Or.inl hd
      · simp only [decide_eq_false_iff_not, not_not] at hc
        subst hc
        exact Or.inr ⟨t, hd⟩
  · rw [if_neg hpre] at hG
    simp at hG

theorem stripSub_cons_none {k : List Char} {c : Char} {t : List Char}
    (hm : stripMatchAt k (c :: t) = none) :
    stripSub k (c :: t) = c :: stripSub k t := by
  rw [stripSub_cons, hm]

theorem stripSub_cons_some {k : List Char} {c : Char} {t repl : List Char}
    {extra : Nat} (hm : stripMatchAt k (c :: t) = some (repl, extra)) :
    stripSub k (c :: t) = repl ++ stripSub k ((c :: t).drop (extra + 1)) := by
  rw [stripSub_cons, hm]

theorem stripMatchAt_newline {k t : List Char}
    (hk : ∀ c ∈ k, wordChar c = true) :
    stripMatchAt k ('\n' :: t) = none := by
  apply stripMatchAt_eq_none_of_noReach
  intro q hq
  cases q with
  | zero =>
    rw [List.drop_zero]
    cases hk0 : k with
    | nil =>
      simp [List.isPrefixOf]
    | cons c k2 =>
      have hc := wordChar_ne_newline (hk c (by rw [hk0]; simp))
      rw [List.cons_append]
      simp [List.isPrefixOf, hc]
  | succ q2 =>
    have := hq '\n' (by simp)
    exact absurd rfl this

theorem noReach_cons {k : List Char} {c : Char} {t : List Char}
    (h : noReach k (c :: t)) (hc : c ≠ '\n') : noReach k t := by
  intro q hq
  have h2 := h (q + 1) ?_
  · rw [List.drop_succ_cons] at h2
    exact h2
  · intro d hd
    rw [List.take_succ_cons] at hd
    rcases List.mem_cons.mp hd with rfl | hd2
    · exact hc
    · exact hq d hd2

theorem noReach_of_firstLine_eq {k s s2 : List Char}
    (hk : ∀ c ∈ k, wordChar c = true)
    (hfl : s2.takeWhile (fun c => c ≠ '\n') = s.takeWhile (fun c => c ≠ '\n'))
    (h : noReach k s) : noReach k s2 := by
  intro q hq
  by_contra hpre
  rw [Bool.not_eq_false] at hpre
  have hkdnil : k ++ ['-'] ≠ [] := by simp
  have hqlen : q ≤ s2.length := by
    by_contra hgt
    push_neg at hgt
    rw [List.drop_eq_nil_of_le (le_of_lt hgt)] at hpre
    rw [List.isPrefixOf_iff_prefix] at hpre
    exact hkdnil (List.prefix_nil.mp hpre)
  have hqfl : q ≤ (s2.takeWhile (fun c => c ≠ '\n')).length := by
    apply takeWhile_prefix_le hqlen
    intro c hc
    simp only [decide_eq_true_eq]
    exact hq c hc
  have hs2 : s2.takeWhile (fun c => c ≠ '\n') ++
      s2.dropWhile (fun c => c ≠ '\n') = s2 :=
    List.takeWhile_append_dropWhile _ _
  have hdropdec : s2.drop q = (s2.takeWhile (fun c => c ≠ '\n')).drop q ++
      s2.dropWhile (fun c => c ≠ '\n') := by
    conv_lhs => rw [← hs2]
    rw [List.drop_append_of_le_length hqfl]
  have hkdfl : (k ++ ['-']).length ≤
      ((s2.takeWhile (fun c => c ≠ '\n')).drop q).length := by
    rcases dropWhile_shape (fun c => c ≠ '\n') s2 with hd | ⟨c, t, hd, hc⟩
    · rw [hdropdec, hd, List.append_nil] at hpre
      exact List.IsPrefix.length_le (List.isPrefixOf_iff_prefix.mp hpre)
    · simp only [decide_eq_false_iff_not, not_not] at hc
      subst hc
      rw [hdropdec, hd] at hpre
      exact prefix_len_le_of_newline hpre (kd_no_newline hk)
  have hprefl : (k ++ ['-']).isPrefixOf
      ((s2.takeWhile (fun c => c ≠ '\n')).drop q) = true := by
    rw [hdropdec] at hpre
    exact prefix_take_of_le hpre hkdfl
  rw [hfl] at hprefl hqfl
  have hs1 : s.takeWhile (fun c => c ≠ '\n') ++
      s.dropWhile (fun c => c ≠ '\n') = s :=
    List.takeWhile_append_dropWhile _ _
  have hfalse := h q ?_
  · have hdropdec1 : s.drop q = (s.takeWhile (fun c => c ≠ '\n')).drop q ++
        s.dropWhile (fun c => c ≠ '\n') := by
      conv_lhs => rw [← hs1]
      rw [List.drop_append_of_le_length hqfl]
    rw [hdropdec1] at hfalse
    have : (k ++ ['-']).isPrefixOf
        ((s.takeWhile (fun c => c ≠ '\n')).drop q ++
          s.dropWhile (fun c => c ≠ '\n')) = true := by
      rw [List.isPrefixOf_iff_prefix] at hprefl ⊢
      exact hprefl.trans (List.prefix_append _ _)
    rw [this] at hfalse
    simp at hfalse
  · intro c hc
    have hcfl : c ∈ s.takeWhile (fun c => c ≠ '\n') := by
      have htq : s.take q = (s.takeWhile (fun c => c ≠ '\n')).take q := by
        conv_lhs => rw [← hs1]
        rw [List.take_append_of_le_length hqfl]
      rw [htq] at hc
      exact List.mem_of_mem_take hc
    have := List.mem_takeWhile_imp hcfl
    simpa using this

theorem stripSub_firstLine {k : List Char} :
    ∀ n, ∀ s : List Char, s.length ≤ n → noReach k s →
      (stripSub k s).takeWhile (fun c => c ≠ '\n') =
        s.takeWhile (fun c => c ≠ '\n') := by
  intro n
  induction n with
  | zero =>
    intro s hs _
    have : s = [] := List.eq_nil_of_length_eq_zero (by omega)
    subst this
    rfl
  | succ n ih =>
    intro s hs hnr
    rcases s with _ | ⟨c, t⟩
    · rfl
    have hm : stripMatchAt k (c :: t) = none :=
      stripMatchAt_eq_none_of_noReach hnr
    rw [stripSub_cons_none hm]
    by_cases hc : c = '\n'
    · subst hc
      rw [List.takeWhile_cons_of_neg (by simp), List.takeWhile_cons_of_neg (by simp)]
    · rw [List.takeWhile_cons_of_pos (by simpa using hc),
        List.takeWhile_cons_of_pos (by simpa using hc)]
      have hlen : t.length ≤ n := by
        simp only [List.length_cons] at hs
        omega
      rw [ih t hlen (noReach_cons hnr hc)]

theorem stripSub_idem_aux {k : List Char}
    (hk : ∀ c ∈ k, wordChar c = true) (hkus : '_' ∉ k) (hkne : k ≠ ['M', 'D']) :
    ∀ n, ∀ s : List Char, s.length ≤ n →
      stripSub k (stripSub k s) = stripSub k s := by
  intro n
  induction n with
  | zero =>
    intro s hs
    have hnil : s = [] := List.eq_nil_of_length_eq_zero (by omega)
    subst hnil
    rfl
  | succ n ih =>
    intro s hs
    rcases s with _ | ⟨c, t⟩
    · rfl
    rcases hm : stripMatchAt k (c :: t) with _ | ⟨repl, extra⟩
    · rw [stripSub_cons_none hm]
      have hnr : noReach k (c :: t) := noReach_of_stripMatchAt_eq_none hm
      have hm2 : stripMatchAt k (c :: stripSub k t) = none := by
        by_cases hc : c = '\n'
        · subst hc
          exact stripMatchAt_newline hk
        · apply stripMatchAt_eq_none_of_noReach
          apply noReach_of_firstLine_eq hk ?_ hnr
          rw [List.takeWhile_cons_of_pos (by simpa using hc),
            List.takeWhile_cons_of_pos (by simpa using hc)]
          have hlen : t.length ≤ n := by
            simp only [List.length_cons] at hs
            omega
          rw [stripSub_firstLine n t hlen (noReach_cons hnr hc)]
      rw [stripSub_cons_none hm2]
      have hlen : t.length ≤ n := by
        simp only [List.length_cons] at hs
        omega
      rw [ih t hlen]
    · obtain ⟨a1, gap, b1, tail, rest2, hsdec, hrepl, hextra, haf, hbf, hgapnl,
        htailnl, hrest⟩ := stripMatchAt_some_inv hm
      rw [stripSub_cons_some hm]
      have hsdec2 : c :: t =
          ((((a1 ++ gap) ++ b1) ++ (k ++ ['-'])) ++ tail) ++ rest2 := by
        rw [hsdec]
        simp
      have hplen : (((((a1 ++ gap) ++ b1) ++ (k ++ ['-'])) ++ tail)).length =
          extra + 1 := by
        simp only [List.length_append, List.length_cons, List.length_nil]
        simp [hextra]
        omega
      have hdrop : (c :: t).drop (extra + 1) = rest2 := by
        rw [hsdec2, ← hplen]
        exact List.drop_left' rfl
      rw [hdrop]
      have hlenrest : rest2.length + (extra + 1) = (c :: t).length := by
        have h2 := congrArg List.length hsdec2
        simp only [List.length_append] at h2
        have h3 := hplen
        simp only [List.length_append] at h3
        rw [h2]
        omega
      have hXshape : stripSub k rest2 = [] ∨
          ∃ t2, stripSub k rest2 = '\n' :: t2 := by
        rcases hrest with hr0 | ⟨t2, hr2⟩
        · subst hr0
          exact Or.inl rfl
        · subst hr2
          rw [stripSub_cons_none (stripMatchAt_newline hk)]
          exact Or.inr ⟨stripSub k t2, rfl⟩
      have hshape : repl ++ stripSub k rest2 =
          a1 ++ (b1 ++ (k ++ '-' :: (tail ++ stripSub k rest2))) := by
        rw [hrepl]
        simp
      have hm2 := stripMatchAt_gap_zero hk hkus hkne haf hbf htailnl hXshape
      rw [← hshape] at hm2
      have hrlen : repl.length = a1.length + b1.length + k.length + tail.length + 1 := by
        rw [hrepl]
        simp only [List.length_append, List.length_cons]
        omega
      rcases hrx : repl ++ stripSub k rest2 with _ | ⟨c2, t2x⟩
      · have : repl = [] := (List.append_eq_nil.mp hrx).1
        rw [this] at hrlen
        simp at hrlen
      · rw [hrx] at hm2
        rw [stripSub_cons_some hm2]
        have hdrop2 : (c2 :: t2x).drop
            (a1.length + b1.length + k.length + tail.length + 1) =
            stripSub k rest2 := by
          rw [← hrx, ← hrlen]
          exact List.drop_left repl _
        rw [hdrop2, ← hrx, ← hrepl]
        congr 1
        rcases hrest with hr0 | ⟨t2r, hr2⟩
        · subst hr0
          rfl
        · subst hr2
          rw [stripSub_cons_none (stripMatchAt_newline hk)]
          rw [stripSub_cons_none (stripMatchAt_newline hk)]
          have hlent2 : t2r.length ≤ n := by
            simp only [List.length_cons] at hlenrest hs
            omega
          rw [ih t2r hlent2]

theorem stripSub_idem {k : List Char}
    (hk : ∀ c ∈ k, wordChar c = true) (hkus : '_' ∉ k) (hkne : k ≠ ['M', 'D'])
    (s : List Char) : stripSub k (stripSub k s) = stripSub k s :=
  stripSub_idem_aux hk hkus hkne s.length s (le_refl _)

/-- C5 (amended): `strip_module_instance` is idempotent for every search
id made of word characters that contains no underscore and differs from
`"MD"`: stripping a second time leaves the first result unchanged.  (For
`search_id = "MD"` the function is not idempotent, see the
counterexample.) -/
theorem strip_module_instance_idempotent :
    ∀ (x k : String), (∀ c ∈ k.data, wordChar c = true) → '_' ∉ k.data →
      k ≠ "MD" →
      strip_module_instance (strip_module_instance x k) k =
        strip_module_instance x k := by
  intro x k hw hus hne
  have hkd : k.data ≠ ['M', 'D'] := by
    intro h
    apply hne
    cases k with
    | mk d =>
      simp only at h
      subst h
      rfl
  exact congrArg String.mk (stripSub_idem hw hus hkd x.data)

/-- Counterexample for C5 as stated: with `search_id = "MD"` the first
pass turns `"xMD-1_yMD-2"` into `"MD-1_yMD-2"` (the lazy gap swallows
the leading `x`), and a second pass strips the `y` as well, so the two
results differ. -/
theorem strip_module_instance_counterexample :
    strip_module_instance "xMD-1_yMD-2" "MD" = "MD-1_yMD-2" ∧
      strip_module_instance "MD-1_yMD-2" "MD" = "MD-1_MD-2" ∧
      strip_module_instance (strip_module_instance "xMD-1_yMD-2" "MD") "MD" ≠
        strip_module_instance "xMD-1_yMD-2" "MD" :=
  ⟨by decide, by decide, by decide⟩

/-- Witness for the C5 theorem at a concrete input: `search_id = "CH"`
satisfies the hypotheses and stripping `"MD-1_M-1_MI-1_CH-4"` twice
equals stripping it once. -/
theorem strip_module_instance_idempotent_witness :
    (∀ c ∈ ("CH" : String).data, wordChar c = true) ∧
      '_' ∉ ("CH" : String).data ∧ ("CH" : String) ≠ "MD" ∧
      strip_module_instance
          (strip_module_instance "MD-1_M-1_MI-1_CH-4" "CH") "CH" =
        strip_module_instance "MD-1_M-1_MI-1_CH-4" "CH" :=
  ⟨by decide, by decide, by decide,
    strip_module_instance_idempotent "MD-1_M-1_MI-1_CH-4" "CH" (by decide)
      (by decide) (by decide)⟩


end XKnxProject